import Mathlib

/-!
# Verification of the Vexa streaming transcription and decision pipeline

Shallow embedding, in Lean 4, of the parts of the Vexa repository that the
checked claims talk about:

* `services/decision-listener/listener.py` — `_tokenize`, `_is_similar`,
  `_get_window`, and the store/dedup decision of `_handle_meeting_update`;
* `services/decision-listener/llm.py` — the `analyze_window` result shaping;
* `services/WhisperLive/whisper_live/server.py` —
  `ServeClientBase.add_frames`, `ServeClientBase.clip_audio_if_no_valid_segment`,
  `ServeClientFasterWhisper.update_segments`, and
  `TranscriptSpeakerMatcher` (`_create_speaker_activity_segments`, `match`);
* `libs/shared-models/shared_models/storage.py` — `LocalStorageClient` and
  `MinIOStorageClient` key handling.

Conventions of the embedding:

* Python floats that hold second counts, probabilities and ratios are modelled
  as `ℚ` (all the constants involved — 0.45, 0.5, 0.7, 25, 30, 45 — are exact,
  and the quantities compared are ratios of small integers, so the rational
  model agrees with IEEE double comparison at every comparison the code makes).
* Python strings are modelled as Lean `String`; character-level operations
  (strip, split, lower) are defined below on `List Char`, restricted to the
  ASCII behaviour which is the only behaviour the claims exercise.
* `datetime` values are modelled as rational seconds since an arbitrary epoch;
  `timedelta` is rational seconds.
-/

namespace Vexa

/-! ## Python string primitives (ASCII fragment) -/

/-- The ASCII whitespace characters recognised by Python's `str.split()` /
`str.strip()` / regex `\s` (the Unicode additions are irrelevant here). -/
def pyWs (c : Char) : Bool :=
  c = ' ' || c = '\x09' || c = '\x0a' || c = '\x0d' || c = '\x0b' || c = '\x0c'

/-- Python `str.strip()` on a character list. -/
def stripCh (cs : List Char) : List Char :=
  ((cs.dropWhile pyWs).reverse.dropWhile pyWs).reverse

/-- Python `str.strip()`. -/
def pyStrip (s : String) : String := ⟨stripCh s.data⟩

/-- Python `str.lower()` (ASCII). -/
def pyLower (s : String) : String := ⟨s.data.map Char.toLower⟩

/-- Worker for `str.split()` with no separator: split on whitespace runs,
dropping empty words.  `acc` is the current word, reversed. -/
def splitWsGo : List Char → List Char → List String
  | [], acc => if acc.isEmpty then [] else [⟨acc.reverse⟩]
  | c :: cs, acc =>
    if pyWs c then
      if acc.isEmpty then splitWsGo cs [] else ⟨acc.reverse⟩ :: splitWsGo cs []
    else
      splitWsGo cs (c :: acc)

/-- Python `str.split()` (no argument — split on whitespace runs). -/
def pySplitWs (s : String) : List String := splitWsGo s.data []

/-! ## decision-listener `listener.py`: tokenisation and similarity -/

/-- A character kept by `re.sub(r"[^a-z0-9\s]", "", ·)` (the text is already
lowercased when the regex runs). -/
def tokenChar (c : Char) : Bool :=
  ('a' ≤ c && c ≤ 'z') || ('0' ≤ c && c ≤ '9') || pyWs c

/-- `listener._tokenize`: significant words (length > 3) of the lowercased
text with non-alphanumeric characters stripped. -/
def tokenize (s : String) : Finset String :=
  ((splitWsGo ((s.data.map Char.toLower).filter tokenChar) []).filter
    (fun w => 3 < w.length)).toFinset

/-- The Jaccard ratio computed inside `listener._is_similar`
(`intersection / union if union else 0.0`). -/
def jaccardQ (wa wb : Finset String) : ℚ :=
  if (wa ∪ wb).card = 0 then 0
  else ((wa ∩ wb).card : ℚ) / ((wa ∪ wb).card : ℚ)

/-- The containment ratio computed inside `listener._is_similar`
(`intersection / smaller if smaller else 0.0`). -/
def containQ (wa wb : Finset String) : ℚ :=
  if min wa.card wb.card = 0 then 0
  else ((wa ∩ wb).card : ℚ) / ((min wa.card wb.card : ℕ) : ℚ)

/-- `listener._is_similar`: duplicate when Jaccard ≥ 0.50 or containment
≥ 0.70, with the two empty-token-set early returns. -/
def isSimilar (a b : String) : Bool :=
  let wa := tokenize a
  let wb := tokenize b
  if wa = ∅ ∧ wb = ∅ then true
  else if wa = ∅ ∨ wb = ∅ then false
  else if jaccardQ wa wb ≥ 1/2 then true
  else containQ wa wb ≥ 7/10

/-! ## decision-listener `listener.py`: windowing and the handler -/

/-- Python `xs[-w:]` (note `xs[-0:]` is the whole list). -/
def pyTakeLast {α : Type} (w : ℕ) (xs : List α) : List α :=
  if w = 0 then xs else xs.drop (xs.length - w)

/-- `listener._get_window`: drop the trailing `offN` segments (when
`offN > 0`, and everything when the buffer is not longer than `offN`),
then keep the last `winN`. -/
def getWindow {α : Type} (winN offN : ℕ) (buf : List α) : List α :=
  let all1 := if 0 < offN then
      (if offN < buf.length then buf.take (buf.length - offN) else [])
    else buf
  if winN < all1.length then pyTakeLast winN all1 else all1

/-- The control decisions of `listener._handle_meeting_update` up to the LLM
call: debounced → skip; empty window → skip; analysis lock held → skip;
otherwise `analyze_window` is invoked.  Returns whether the LLM is called. -/
def llmCalled (debounced lockHeld : Bool) (winN offN : ℕ) {α : Type}
    (buf : List α) : Bool :=
  if debounced then false
  else if (getWindow winN offN buf).isEmpty then false
  else if lockHeld then false
  else true

/-- Arguments of the single `capture_meeting_item` tool call, as decoded by
`llm.analyze_window` (`args.get("type", "no_match")` etc.). -/
structure ToolArgs where
  type : String
  summary : String
  speaker : Option String
  confidence : ℚ
  entities : List String
  deriving DecidableEq

/-- The item dict built by `llm.analyze_window`. -/
structure MeetingItem where
  type : String
  summary : String
  speaker : Option String
  confidence : ℚ
  entities : List String
  deriving DecidableEq

/-- `llm.analyze_window` result shaping: `None` for `no_match`, otherwise the
item dict.  (The `None` returns for transport errors and missing tool calls
are modelled by the caller passing `none`.) -/
def analyzeResult (args : ToolArgs) : Option MeetingItem :=
  if args.type = "no_match" then none
  else some ⟨args.type, args.summary, args.speaker, args.confidence, args.entities⟩

/-- What `_handle_meeting_update` does with the item produced by
`analyze_window`. -/
inductive HandlerOutcome where
  | noStore            -- `item is None` → return before dedup
  | dedupDiscard       -- Jaccard/containment hit against a stored summary
  | storedAndBroadcast -- `_store_decision` + `_broadcast`
  deriving DecidableEq

/-- The `jaccard_hit` computation of `_handle_meeting_update`:
`any(_is_similar(s.strip(), incoming) for s in all_summaries)`. -/
def dedupHit (summaries : List String) (incoming : String) : Bool :=
  summaries.any (fun s => isSimilar (pyStrip s) incoming)

/-- The tail of `_handle_meeting_update`, from the `analyze_window` result to
the store/broadcast decision (`incoming = item["summary"].strip()`). -/
def handleAnalyzed (storedSummaries : List String) (res : Option MeetingItem) :
    HandlerOutcome :=
  match res with
  | none => .noStore
  | some item =>
    if storedSummaries.isEmpty then .storedAndBroadcast
    else if dedupHit storedSummaries (pyStrip item.summary) then .dedupDiscard
    else .storedAndBroadcast

/-- The claim's early-return rule, written from the spec's words
("If `no_match` or confidence < configured floor → return") for comparison
with the code, which has no confidence floor. -/
def claimEarlyReturn (floor : ℚ) (item : MeetingItem) : Bool :=
  item.type = "no_match" || item.confidence < floor

end Vexa


namespace Vexa

/-! ## Arithmetic bridges for the rational thresholds

`Rat` division does not reduce in the kernel (its normalisation runs
`Nat.gcd`), so the threshold comparisons are re-expressed over `ℕ`. -/

lemma half_le_div_iff (i u : ℕ) (hu : 0 < u) :
    ((1 : ℚ)/2 ≤ (i : ℚ) / (u : ℚ)) ↔ u ≤ 2 * i := by
  have hu' : (0 : ℚ) < (u : ℚ) := by exact_mod_cast hu
  rw [div_le_div_iff₀ (by norm_num) hu']
  constructor
  · intro h
    have : (u : ℚ) ≤ (2 * i : ℕ) := by push_cast; linarith
    exact_mod_cast this
  · intro h
    have : (u : ℚ) ≤ (2 * i : ℕ) := by exact_mod_cast h
    push_cast at this; linarith

lemma sevenTenths_le_div_iff (i m : ℕ) (hm : 0 < m) :
    ((7 : ℚ)/10 ≤ (i : ℚ) / (m : ℚ)) ↔ 7 * m ≤ 10 * i := by
  have hm' : (0 : ℚ) < (m : ℚ) := by exact_mod_cast hm
  rw [div_le_div_iff₀ (by norm_num) hm']
  constructor
  · intro h
    have : ((7 * m : ℕ) : ℚ) ≤ ((10 * i : ℕ) : ℚ) := by push_cast; linarith
    exact_mod_cast this
  · intro h
    have : ((7 * m : ℕ) : ℚ) ≤ ((10 * i : ℕ) : ℚ) := by exact_mod_cast h
    push_cast at this; linarith

/-- `_is_similar`, with both token sets non-empty, decided over `ℕ`:
Jaccard ≥ 1/2 becomes `union ≤ 2·inter`, containment ≥ 7/10 becomes
`7·smaller ≤ 10·inter`. -/
lemma isSimilar_iff (a b : String) (hEA : tokenize a ≠ ∅) (hEB : tokenize b ≠ ∅) :
    isSimilar a b = true ↔
      ((tokenize a ∪ tokenize b).card ≤ 2 * (tokenize a ∩ tokenize b).card ∨
       7 * min (tokenize a).card (tokenize b).card ≤
         10 * (tokenize a ∩ tokenize b).card) := by
  have hU : 0 < (tokenize a ∪ tokenize b).card := by
    rw [Finset.card_pos]
    exact (Finset.nonempty_iff_ne_empty.2 hEA).mono Finset.subset_union_left
  have hA : 0 < (tokenize a).card :=
    Finset.card_pos.2 (Finset.nonempty_iff_ne_empty.2 hEA)
  have hB : 0 < (tokenize b).card :=
    Finset.card_pos.2 (Finset.nonempty_iff_ne_empty.2 hEB)
  have hM : 0 < min (tokenize a).card (tokenize b).card := lt_min hA hB
  have hj : jaccardQ (tokenize a) (tokenize b) ≥ 1/2 ↔
      (tokenize a ∪ tokenize b).card ≤ 2 * (tokenize a ∩ tokenize b).card := by
    unfold jaccardQ
    rw [if_neg (Nat.pos_iff_ne_zero.1 hU)]
    exact half_le_div_iff _ _ hU
  have hc : containQ (tokenize a) (tokenize b) ≥ 7/10 ↔
      7 * min (tokenize a).card (tokenize b).card ≤
        10 * (tokenize a ∩ tokenize b).card := by
    unfold containQ
    rw [if_neg (Nat.pos_iff_ne_zero.1 hM)]
    exact sevenTenths_le_div_iff _ _ hM
  rw [isSimilar]
  simp only [hEA, hEB, false_and, and_false, false_or, or_self, if_false]
  by_cases h1 : jaccardQ (tokenize a) (tokenize b) ≥ 1/2
  · rw [if_pos h1]
    simp only [true_iff]
    exact Or.inl (hj.1 h1)
  · rw [if_neg h1, decide_eq_true_iff, hc]
    constructor
    · exact Or.inr
    · rintro (h | h)
      · exact absurd (hj.2 h) h1
      · exact h

end Vexa

namespace Vexa

/-! ## Theorems about the decision-listener dedup and handler -/

/-- **C1, counterexample.**  The claim's worked example asserts that the
significant-token set of `"We've decided to migrate to Postgres in Q3"`
contains `"q3"` and that the Jaccard ratio against
`"We will migrate to Postgres by Q3"` is 2/6.  In the code `_tokenize` keeps
only words of length > 3, so `"q3"` (length 2) is excluded: the token set has
four elements and the Jaccard ratio is 2/5. -/
theorem dedup_example_counterexample :
    tokenize "We\x27ve decided to migrate to Postgres in Q3" ≠
      (["weve", "decided", "migrate", "postgres", "q3"] : List String).toFinset ∧
    jaccardQ (tokenize "We will migrate to Postgres by Q3")
        (tokenize "We\x27ve decided to migrate to Postgres in Q3") ≠ 2/6 := by
  constructor
  · decide
  · have h1 : tokenize "We will migrate to Postgres by Q3" =
        (["will", "migrate", "postgres"] : List String).toFinset := by decide
    have h2 : tokenize "We\x27ve decided to migrate to Postgres in Q3" =
        (["weve", "decided", "migrate", "postgres"] : List String).toFinset := by
      decide
    rw [h1, h2, jaccardQ]
    have hI : ((["will", "migrate", "postgres"] : List String).toFinset ∩
        (["weve", "decided", "migrate", "postgres"] : List String).toFinset).card = 2 := by
      decide
    have hU : ((["will", "migrate", "postgres"] : List String).toFinset ∪
        (["weve", "decided", "migrate", "postgres"] : List String).toFinset).card = 5 := by
      decide
    rw [hI, hU, if_neg (by norm_num)]
    norm_num

/-- **C1, amended.**  The worked example as the code computes it: token sets
`{will, migrate, postgres}` and `{weve, decided, migrate, postgres}` (`q3` has
length 2 ≤ 3 so it is not significant), Jaccard 2/5 = 0.40 < 0.50 and
containment 2/3 < 0.70, so the new item is accepted (stored and broadcast);
with `"We will migrate to Postgres before Q3 ends"` the Jaccard is
3/5 = 0.60 ≥ 0.50 and the item is rejected as a duplicate. -/
theorem dedup_worked_example :
    tokenize "We will migrate to Postgres by Q3" =
      (["will", "migrate", "postgres"] : List String).toFinset ∧
    tokenize "We\x27ve decided to migrate to Postgres in Q3" =
      (["weve", "decided", "migrate", "postgres"] : List String).toFinset ∧
    jaccardQ (tokenize "We will migrate to Postgres by Q3")
        (tokenize "We\x27ve decided to migrate to Postgres in Q3") = 2/5 ∧
    containQ (tokenize "We will migrate to Postgres by Q3")
        (tokenize "We\x27ve decided to migrate to Postgres in Q3") = 2/3 ∧
    handleAnalyzed ["We will migrate to Postgres by Q3"]
        (some ⟨"decision", "We\x27ve decided to migrate to Postgres in Q3",
               none, 9/10, []⟩) = .storedAndBroadcast ∧
    tokenize "We will migrate to Postgres before Q3 ends" =
      (["will", "migrate", "postgres", "before", "ends"] : List String).toFinset ∧
    jaccardQ (tokenize "We will migrate to Postgres by Q3")
        (tokenize "We will migrate to Postgres before Q3 ends") = 3/5 ∧
    handleAnalyzed ["We will migrate to Postgres by Q3"]
        (some ⟨"decision", "We will migrate to Postgres before Q3 ends",
               none, 9/10, []⟩) = .dedupDiscard := by
  have h1 : tokenize "We will migrate to Postgres by Q3" =
      (["will", "migrate", "postgres"] : List String).toFinset := by decide
  have h2 : tokenize "We\x27ve decided to migrate to Postgres in Q3" =
      (["weve", "decided", "migrate", "postgres"] : List String).toFinset := by
    decide
  have h3 : tokenize "We will migrate to Postgres before Q3 ends" =
      (["will", "migrate", "postgres", "before", "ends"] : List String).toFinset := by
    decide
  have hsimF : isSimilar "We will migrate to Postgres by Q3"
      "We\x27ve decided to migrate to Postgres in Q3" = false := by
    rw [← Bool.not_eq_true, isSimilar_iff _ _ (by decide) (by decide), h1, h2]
    decide
  have hsimT : isSimilar "We will migrate to Postgres by Q3"
      "We will migrate to Postgres before Q3 ends" = true := by
    rw [isSimilar_iff _ _ (by decide) (by decide), h1, h3]
    decide
  refine ⟨h1, h2, ?_, ?_, ?_, h3, ?_, ?_⟩
  · rw [h1, h2, jaccardQ]
    have hI : ((["will", "migrate", "postgres"] : List String).toFinset ∩
        (["weve", "decided", "migrate", "postgres"] : List String).toFinset).card = 2 := by
      decide
    have hU : ((["will", "migrate", "postgres"] : List String).toFinset ∪
        (["weve", "decided", "migrate", "postgres"] : List String).toFinset).card = 5 := by
      decide
    rw [hI, hU, if_neg (by norm_num)]
    norm_num
  · rw [h1, h2, containQ]
    have hI : ((["will", "migrate", "postgres"] : List String).toFinset ∩
        (["weve", "decided", "migrate", "postgres"] : List String).toFinset).card = 2 := by
      decide
    have hMin : min (["will", "migrate", "postgres"] : List String).toFinset.card
        (["weve", "decided", "migrate", "postgres"] : List String).toFinset.card = 3 := by
      decide
    rw [hI, hMin, if_neg (by norm_num)]
    norm_num
  · have hstrip1 : pyStrip "We will migrate to Postgres by Q3" =
        "We will migrate to Postgres by Q3" := by decide
    have hstrip2 : pyStrip "We\x27ve decided to migrate to Postgres in Q3" =
        "We\x27ve decided to migrate to Postgres in Q3" := by decide
    simp [handleAnalyzed, dedupHit, hstrip1, hstrip2, hsimF]
  · rw [h1, h3, jaccardQ]
    have hI : ((["will", "migrate", "postgres"] : List String).toFinset ∩
        (["will", "migrate", "postgres", "before", "ends"] : List String).toFinset).card
        = 3 := by decide
    have hU : ((["will", "migrate", "postgres"] : List String).toFinset ∪
        (["will", "migrate", "postgres", "before", "ends"] : List String).toFinset).card
        = 5 := by decide
    rw [hI, hU, if_neg (by norm_num)]
    norm_num
  · have hstrip1 : pyStrip "We will migrate to Postgres by Q3" =
        "We will migrate to Postgres by Q3" := by decide
    have hstrip3 : pyStrip "We will migrate to Postgres before Q3 ends" =
        "We will migrate to Postgres before Q3 ends" := by decide
    simp [handleAnalyzed, dedupHit, hstrip1, hstrip3, hsimT]

end Vexa

namespace Vexa

/-- **C10.**  `_is_similar` classifies two token-less summaries as duplicates
of each other, exactly one token-less summary as a non-duplicate of the other,
and consequently `_handle_meeting_update` discards a new item whose stripped
summary has no significant token whenever some stored summary is also
token-less. -/
theorem tokenless_dedup (a b : String) (stored : List String) (item : MeetingItem) :
    (tokenize a = ∅ → tokenize b = ∅ → isSimilar a b = true) ∧
    (tokenize a = ∅ → tokenize b ≠ ∅ → isSimilar a b = false) ∧
    (tokenize a ≠ ∅ → tokenize b = ∅ → isSimilar a b = false) ∧
    (tokenize (pyStrip item.summary) = ∅ →
      (∃ s ∈ stored, tokenize (pyStrip s) = ∅) →
      handleAnalyzed stored (some item) = .dedupDiscard) := by
  refine ⟨?_, ?_, ?_, ?_⟩
  · intro ha hb; simp [isSimilar, ha, hb]
  · intro ha hb; simp [isSimilar, ha, hb]
  · intro ha hb; simp [isSimilar, ha, hb]
  · intro hinc hex
    obtain ⟨s, hs, hstok⟩ := hex
    have hsim : isSimilar (pyStrip s) (pyStrip item.summary) = true := by
      simp [isSimilar, hstok, hinc]
    have hne : stored ≠ [] := by rintro rfl; simp at hs
    have hhit : dedupHit stored (pyStrip item.summary) = true := by
      simp only [dedupHit, List.any_eq_true]
      exact ⟨s, hs, hsim⟩
    simp [handleAnalyzed, hhit, hne]

/-- Witness for `tokenless_dedup` at concrete inputs. -/
theorem tokenless_dedup_witness :
    isSimilar "a b c" "x yz" = true ∧
    isSimilar "it is" "hello world" = false ∧
    isSimilar "hello world" "it is" = false ∧
    handleAnalyzed ["ok go", "keep the cadence"]
      (some ⟨"decision", "do it now", none, 9/10, []⟩) = .dedupDiscard := by
  refine ⟨(tokenless_dedup "a b c" "x yz" [] ⟨"", "", none, 0, []⟩).1
            (by decide) (by decide),
          (tokenless_dedup "it is" "hello world" [] ⟨"", "", none, 0, []⟩).2.1
            (by decide) (by decide),
          (tokenless_dedup "hello world" "it is" [] ⟨"", "", none, 0, []⟩).2.2.1
            (by decide) (by decide),
          (tokenless_dedup "" "" ["ok go", "keep the cadence"]
              ⟨"decision", "do it now", none, 9/10, []⟩).2.2.2
            (by decide) ⟨"ok go", by simp, by decide⟩⟩

/-- **C7, counterexample.**  The code has no confidence floor: an item of type
`"decision"` with confidence 0.0 — which is below any positive configured
floor, so the claim's rule (here instantiated at floor 1/100) says "return
without storing" — is in fact stored and broadcast by
`_handle_meeting_update`. -/
theorem confidence_floor_counterexample :
    claimEarlyReturn (1/100)
      ⟨"decision", "Ship the feature on Friday", some "Alice", 0, []⟩ = true ∧
    handleAnalyzed []
      (analyzeResult ⟨"decision", "Ship the feature on Friday", some "Alice", 0, []⟩) =
      .storedAndBroadcast := by
  constructor
  · simp only [claimEarlyReturn, Bool.or_eq_true, decide_eq_true_iff]
    right
    norm_num
  · simp [analyzeResult, handleAnalyzed]

/-- **C7, amended.**  `analyze_window` returns `None` exactly for `no_match`
(so the handler returns before storing or broadcasting), and no confidence
floor is applied: the handler's outcome is invariant under the item's
confidence, and every non-`no_match` item proceeds to deduplication (it is
either discarded as a duplicate or stored and broadcast, never dropped for
low confidence). -/
theorem no_match_gate (args : ToolArgs) (stored : List String) :
    (args.type = "no_match" →
      analyzeResult args = none ∧
      handleAnalyzed stored (analyzeResult args) = .noStore) ∧
    (∀ c : ℚ, handleAnalyzed stored (analyzeResult { args with confidence := c }) =
      handleAnalyzed stored (analyzeResult args)) ∧
    (args.type ≠ "no_match" →
      handleAnalyzed stored (analyzeResult args) ≠ .noStore) := by
  refine ⟨?_, ?_, ?_⟩
  · intro h; simp [analyzeResult, h, handleAnalyzed]
  · intro c
    by_cases h : args.type = "no_match" <;>
      simp [analyzeResult, h, handleAnalyzed]
  · intro h
    simp only [analyzeResult, if_neg h, handleAnalyzed]
    split_ifs <;> simp

/-- Witness for `no_match_gate` at concrete inputs. -/
theorem no_match_gate_witness :
    analyzeResult ⟨"no_match", "", none, 0, []⟩ = none ∧
    handleAnalyzed ["x"] (analyzeResult ⟨"no_match", "", none, 0, []⟩) = .noStore ∧
    handleAnalyzed [] (analyzeResult ⟨"decision", "Go live", none, 1/2, []⟩) ≠ .noStore := by
  refine ⟨((no_match_gate ⟨"no_match", "", none, 0, []⟩ ["x"]).1 rfl).1,
          ((no_match_gate ⟨"no_match", "", none, 0, []⟩ ["x"]).1 rfl).2,
          (no_match_gate ⟨"decision", "Go live", none, 1/2, []⟩ []).2.2 (by decide)⟩

end Vexa

namespace Vexa

/-- **C6.**  For any positive window size, `_get_window` equals "drop the
trailing `offN` entries of the buffer, then take the last `winN` of what
remains"; and whenever the buffer holds `offN` or fewer segments the window
is empty and `_handle_meeting_update` makes no LLM call.  (The window size is
positive in any sensible configuration; default `WINDOW_SEGMENTS = 30`.) -/
theorem window_spec {α : Type} (winN offN : ℕ) (buf : List α) (hW : 1 ≤ winN) :
    getWindow winN offN buf =
      (buf.take (buf.length - offN)).drop
        ((buf.take (buf.length - offN)).length - winN) ∧
    (buf.length ≤ offN →
      getWindow winN offN buf = [] ∧
      ∀ deb lock, llmCalled deb lock winN offN buf = false) := by
  have hWne : winN ≠ 0 := Nat.one_le_iff_ne_zero.1 hW
  have hmain : getWindow winN offN buf =
      (buf.take (buf.length - offN)).drop
        ((buf.take (buf.length - offN)).length - winN) := by
    rw [getWindow]
    by_cases hO : 0 < offN
    · rw [if_pos hO]
      by_cases hlen : offN < buf.length
      · rw [if_pos hlen]
        set rem := buf.take (buf.length - offN) with hrem
        by_cases hw : winN < rem.length
        · rw [if_pos hw, pyTakeLast, if_neg hWne]
        · rw [if_neg hw]
          have : rem.length - winN = 0 := by omega
          rw [this, List.drop_zero]
      · rw [if_neg hlen]
        have h0 : buf.length - offN = 0 := by omega
        rw [h0, List.take_zero]
        simp
    · rw [if_neg hO]
      have h0 : offN = 0 := by omega
      subst h0
      rw [Nat.sub_zero, List.take_length]
      by_cases hw : winN < buf.length
      · rw [if_pos hw, pyTakeLast, if_neg hWne]
      · rw [if_neg hw]
        have : buf.length - winN = 0 := by omega
        rw [this, List.drop_zero]
  refine ⟨hmain, fun hle => ?_⟩
  have hempty : getWindow winN offN buf = [] := by
    rw [hmain]
    have h0 : buf.length - offN = 0 := by omega
    rw [h0, List.take_zero]
    simp
  refine ⟨hempty, fun deb lock => ?_⟩
  rw [llmCalled, hempty]
  cases deb <;> simp

/-- Witness for `window_spec` at the default configuration
(`WINDOW_SEGMENTS = 30`, `OFFSET_SEGMENTS = 3`). -/
theorem window_spec_witness :
    getWindow 30 3 (List.range 40) =
      ((List.range 40).take 37).drop (((List.range 40).take 37).length - 30) ∧
    getWindow 30 3 (List.range 3) = ([] : List ℕ) ∧
    llmCalled false false 30 3 (List.range 3) = false := by
  refine ⟨(window_spec 30 3 (List.range 40) (by norm_num)).1, ?_, ?_⟩
  · exact ((window_spec 30 3 (List.range 3) (by norm_num)).2 (by simp)).1
  · exact ((window_spec 30 3 (List.range 3) (by norm_num)).2 (by simp)).2 false false

end Vexa

namespace Vexa

/-! ## WhisperLive rolling buffer (`ServeClientBase`)

`add_frames`, `clip_audio_if_no_valid_segment` and the timestamp-offset
advancement of `update_segments` / `speech_to_text`, modelled in seconds
(`frames_np.shape[0] / RATE`): sample counts scale by the constant `RATE`
on both sides of every comparison the code makes. -/

/-- Per-session rolling-buffer state: `timestamp_offset` / `frames_offset` /
buffered length, all in seconds. -/
structure BufState where
  timestamp_offset : ℚ
  frames_offset : ℚ
  buf_len : ℚ
  deriving DecidableEq

/-- One operation on the rolling buffer. -/
inductive BufOp where
  /-- `add_frames(frame_np)` with `dur` seconds of new audio. -/
  | addFrames (dur : ℚ)
  /-- `clip_audio_if_no_valid_segment()`. -/
  | clip
  /-- `self.timestamp_offset += offset` after segment emission (and the
  `+= duration` fallback when transcription returns nothing). -/
  | advance (d : ℚ)
  deriving DecidableEq

/-- `add_frames`: if the buffer holds more than 45 s, slide it by 30 s
(`frames_offset += 30`, drop the oldest 30 s) and clamp `timestamp_offset`
up to `frames_offset`; then append the new frames. -/
def addFramesStep (st : BufState) (dur : ℚ) : BufState :=
  let st1 :=
    if st.buf_len > 45 then
      let fo := st.frames_offset + 30
      { timestamp_offset := if st.timestamp_offset < fo then fo else st.timestamp_offset
        frames_offset := fo
        buf_len := st.buf_len - 30 }
    else st
  { st1 with buf_len := st1.buf_len + dur }

/-- `clip_audio_if_no_valid_segment`: when the unconsumed tail
`frames_np[(timestamp_offset - frames_offset)·RATE :]` exceeds 25 s, set
`timestamp_offset = frames_offset + duration - 5` where `duration` is the
whole buffer length in seconds. -/
def clipStep (st : BufState) : BufState :=
  if st.buf_len - (st.timestamp_offset - st.frames_offset) > 25 then
    { st with timestamp_offset := st.frames_offset + st.buf_len - 5 }
  else st

/-- Interleaved execution of the rolling-buffer operations. -/
def stepBuf (st : BufState) : BufOp → BufState
  | .addFrames dur => addFramesStep st dur
  | .clip => clipStep st
  | .advance d => { st with timestamp_offset := st.timestamp_offset + d }

/-- Run a list of operations from the session's start state
(empty buffer, both offsets 0). -/
def runBuf (ops : List BufOp) : BufState :=
  ops.foldl stepBuf ⟨0, 0, 0⟩

/-- Physical side conditions on an operation: appended frames and emission
offsets are non-negative amounts of audio. -/
def opOK : BufOp → Prop
  | .addFrames dur => 0 ≤ dur
  | .clip => True
  | .advance d => 0 ≤ d

instance : DecidablePred opOK := fun op =>
  match op with
  | .addFrames dur => inferInstanceAs (Decidable (0 ≤ dur))
  | .clip => inferInstanceAs (Decidable True)
  | .advance d => inferInstanceAs (Decidable (0 ≤ d))

/-- The inductive invariant: non-negative buffer and
`frames_offset ≤ timestamp_offset`. -/
def BufInv (st : BufState) : Prop :=
  0 ≤ st.buf_len ∧ st.frames_offset ≤ st.timestamp_offset

instance : DecidablePred BufInv := fun st =>
  inferInstanceAs (Decidable (0 ≤ st.buf_len ∧ st.frames_offset ≤ st.timestamp_offset))

lemma stepBuf_inv {st : BufState} {op : BufOp} (h : BufInv st) (hop : opOK op) :
    BufInv (stepBuf st op) := by
  obtain ⟨hlen, hoff⟩ := h
  cases op with
  | addFrames dur =>
    have hd : 0 ≤ dur := hop
    simp only [stepBuf, addFramesStep]
    split_ifs with h45 hclamp
    · exact ⟨by simp only; linarith, by simp only; linarith⟩
    · exact ⟨by simp only; linarith, by simp only; linarith⟩
    · exact ⟨by simp only; linarith, by simp only; linarith⟩
  | clip =>
    simp only [stepBuf, clipStep]
    split_ifs with h25
    · exact ⟨by simp only; linarith, by simp only; linarith⟩
    · exact ⟨hlen, hoff⟩
  | advance d =>
    have hd : 0 ≤ d := hop
    exact ⟨hlen, by simp only [stepBuf]; linarith⟩

lemma foldl_stepBuf_inv (ops : List BufOp) (h : ∀ op ∈ ops, opOK op)
    {st : BufState} (hst : BufInv st) : BufInv (ops.foldl stepBuf st) := by
  induction ops generalizing st with
  | nil => exact hst
  | cons op rest ih =>
    exact ih (fun o ho => h o (List.mem_cons_of_mem _ ho))
      (stepBuf_inv hst (h op (List.mem_cons_self _ _)))

/-- **C4.**  Starting from both offsets at 0, every interleaving of
`add_frames`, `clip_audio_if_no_valid_segment` and offset advancement keeps
`timestamp_offset_sec ≥ buffer_offset_sec` (the append slides the buffer by
30 s when it exceeds 45 s and clamps the timestamp offset up to the new
buffer offset). -/
theorem buffer_offset_invariant (ops : List BufOp) (h : ∀ op ∈ ops, opOK op) :
    (runBuf ops).frames_offset ≤ (runBuf ops).timestamp_offset :=
  (foldl_stepBuf_inv ops h ⟨le_refl 0, le_refl 0⟩).2

/-- Witness for `buffer_offset_invariant`: a run that slides, clips and
advances. -/
theorem buffer_offset_invariant_witness :
    (runBuf [.addFrames 50, .clip, .advance 3, .addFrames 1, .clip]).frames_offset ≤
      (runBuf [.addFrames 50, .clip, .advance 3, .addFrames 1, .clip]).timestamp_offset := by
  apply buffer_offset_invariant
  intro op hop
  fin_cases hop <;> simp [opOK]

/-- **C8.**  `clip_audio_if_no_valid_segment` with an unconsumed tail longer
than 25 s sets `timestamp_offset` to `end_of_buffer − 5` — an advancement by
exactly `(tail − 5)` seconds, which is positive — and leaves the state
unchanged when the tail is 25 s or shorter. -/
theorem clip_if_stalled_spec (st : BufState) :
    (25 < st.buf_len - (st.timestamp_offset - st.frames_offset) →
      clipStep st = { st with timestamp_offset := st.frames_offset + st.buf_len - 5 } ∧
      (clipStep st).timestamp_offset =
        st.timestamp_offset +
          ((st.buf_len - (st.timestamp_offset - st.frames_offset)) - 5) ∧
      st.timestamp_offset < (clipStep st).timestamp_offset) ∧
    (st.buf_len - (st.timestamp_offset - st.frames_offset) ≤ 25 →
      clipStep st = st) := by
  constructor
  · intro h
    have hstep : clipStep st =
        { st with timestamp_offset := st.frames_offset + st.buf_len - 5 } := by
      rw [clipStep, if_pos h]
    refine ⟨hstep, ?_, ?_⟩
    · rw [hstep]; ring
    · rw [hstep]; simp only; linarith
  · intro h
    rw [clipStep, if_neg (by linarith)]

/-- Witness for `clip_if_stalled_spec`: a stalled state (tail 30 s) is clipped
to `end_of_buffer − 5`, a quiescent state (tail 20 s) is untouched. -/
theorem clip_if_stalled_spec_witness :
    clipStep ⟨10, 0, 40⟩ = ⟨35, 0, 40⟩ ∧
    clipStep ⟨10, 0, 30⟩ = ⟨10, 0, 30⟩ := by
  constructor
  · have h := ((clip_if_stalled_spec ⟨10, 0, 40⟩).1 (by norm_num)).1
    rw [h]
    simp only [BufState.mk.injEq]
    norm_num
  · exact (clip_if_stalled_spec ⟨10, 0, 30⟩).2 (by norm_num)

end Vexa

namespace Vexa

/-! ## WhisperLive hypothesis stabiliser (`ServeClientFasterWhisper.update_segments`)

One ASR pass over the current chunk.  The faster-whisper segment record is
embedded with all the fields the spec names (`avg_logprob` and
`compression_ratio` are carried so that theorems can speak about them even
though — as proved below — `update_segments` never reads them).
`format_segment`'s three-decimal string formatting and its speaker-annotation
lookup (`get_speaker_at_time`) are presentation details orthogonal to the
stabiliser's control flow and are not modelled. -/

/-- A faster-whisper output segment (times relative to the chunk start). -/
structure ASRSeg where
  start : ℚ
  endT : ℚ
  text : String
  no_speech_prob : ℚ
  avg_logprob : ℚ
  compression_ratio : ℚ
  deriving DecidableEq

/-- A transcript entry as built by `format_segment` (absolute times). -/
structure FmtSeg where
  start : ℚ
  endT : ℚ
  text : String
  completed : Bool
  deriving DecidableEq

/-- The per-client stabiliser state touched by `update_segments`.
`self.current_out` is reset at the top of each call and is therefore local
to the embedded function. -/
structure WLState where
  timestamp_offset : ℚ
  text : List String
  transcript : List FmtSeg
  prev_out : String
  same_output_count : ℕ
  end_time_for_same_output : Option ℚ
  no_speech_thresh : ℚ
  same_output_threshold : ℕ
  deriving DecidableEq

/-- The `ServeClientFasterWhisper.__init__` values of the stabiliser fields:
`no_speech_thresh = 0.45`, `same_output_threshold = 10`. -/
def initWLState : WLState :=
  { timestamp_offset := 0
    text := []
    transcript := []
    prev_out := ""
    same_output_count := 0
    end_time_for_same_output := none
    no_speech_thresh := 45/100
    same_output_threshold := 10 }

/-- The `for i, s in enumerate(segments[:-1])` loop of `update_segments`:
every non-last segment's text is appended to `self.text`; a transcript entry
is appended unless the clamped interval is empty (`start >= end`) or
`no_speech_prob > no_speech_thresh`; `offset` tracks the last emitted
segment's `min(duration, s.end)`. -/
def processCompleteGo (thresh tso duration : ℚ) :
    List ASRSeg → List String → List FmtSeg → Option ℚ →
    List String × List FmtSeg × Option ℚ
  | [], txts, trs, off => (txts, trs, off)
  | s :: ss, txts, trs, off =>
    let txts' := txts ++ [s.text]
    let start := tso + s.start
    let endv := tso + min duration s.endT
    if start ≥ endv then processCompleteGo thresh tso duration ss txts' trs off
    else if s.no_speech_prob > thresh then
      processCompleteGo thresh tso duration ss txts' trs off
    else
      processCompleteGo thresh tso duration ss txts'
        (trs ++ [⟨start, endv, s.text, true⟩]) (some (min duration s.endT))

/-- The complete-segments phase, run on `segments[:-1]`. -/
def processComplete (thresh tso duration : ℚ) (segs : List ASRSeg) :
    List String × List FmtSeg × Option ℚ :=
  processCompleteGo thresh tso duration segs [] [] none

/-- `ServeClientFasterWhisper.update_segments(segments, duration)`.

Returns the new state and `last_segment` (the partial sent to the client).
The `[]` case is unreachable — `handle_transcription_output` calls
`update_segments` only when `len(result)` is non-zero — and is modelled as a
no-op. -/
def updateSegments (st : WLState) (segments : List ASRSeg) (duration : ℚ) :
    WLState × Option FmtSeg :=
  match segments with
  | [] => (st, none)
  | s0 :: rest =>
    -- `segments[-1]`
    let lastSeg := rest.getLastD s0
    -- process complete segments
    let phase1 :=
      if 1 < (s0 :: rest).length ∧ lastSeg.no_speech_prob ≤ st.no_speech_thresh then
        processComplete st.no_speech_thresh st.timestamp_offset duration
          ((s0 :: rest).dropLast)
      else ([], [], none)
    let st1 := { st with text := st.text ++ phase1.1
                         transcript := st.transcript ++ phase1.2.1 }
    let offset0 := phase1.2.2
    -- only process the last segment if it satisfies the no_speech_thresh
    let current_out :=
      if lastSeg.no_speech_prob ≤ st.no_speech_thresh then lastSeg.text else ""
    let lastSegmentOut : Option FmtSeg :=
      if lastSeg.no_speech_prob ≤ st.no_speech_thresh then
        some ⟨st.timestamp_offset + lastSeg.start,
              st.timestamp_offset + min duration lastSeg.endT, current_out, false⟩
      else none
    if pyStrip current_out = pyStrip st.prev_out ∧ current_out ≠ "" then
      -- same output as the previous pass: bump the counter, remember the end
      -- of the first repetition
      let count2 := st.same_output_count + 1
      let e := st.end_time_for_same_output.getD lastSeg.endT
      if st.same_output_threshold < count2 then
        -- promote the repeated partial
        let stP :=
          if st1.text = [] ∨
             pyLower (pyStrip (st1.text.getLastD "")) ≠ pyLower (pyStrip current_out) then
            { st1 with text := st1.text ++ [current_out]
                       transcript := st1.transcript ++
                         [⟨st.timestamp_offset,
                           st.timestamp_offset + min duration e, current_out, true⟩] }
          else st1
        ({ stP with same_output_count := 0
                    end_time_for_same_output := none
                    timestamp_offset := st.timestamp_offset + min duration e },
         none)
      else
        ({ st1 with same_output_count := count2
                    end_time_for_same_output := some e
                    prev_out := current_out
                    timestamp_offset :=
                      match offset0 with
                      | some o => st.timestamp_offset + o
                      | none => st.timestamp_offset },
         lastSegmentOut)
    else
      ({ st1 with same_output_count := 0
                  end_time_for_same_output := none
                  prev_out := current_out
                  timestamp_offset :=
                    match offset0 with
                    | some o => st.timestamp_offset + o
                    | none => st.timestamp_offset },
       lastSegmentOut)

/-- A sequence of ASR passes (`handle_transcription_output` with non-empty
results), threaded through the stabiliser state. -/
def runPasses (st : WLState) (passes : List (List ASRSeg × ℚ)) : WLState :=
  passes.foldl (fun s p => (updateSegments s p.1 p.2).1) st

/-- The drop rule the claim states, written from the spec's words
("`no_speech_prob > 0.6` or `avg_logprob < −1.0` or
`compression_ratio > 2.4`"), for comparison with the code. -/
def claimSegmentKept (s : ASRSeg) : Bool :=
  ¬(s.no_speech_prob > 6/10) ∧ ¬(s.avg_logprob < -1) ∧ ¬(s.compression_ratio > 24/10)

end Vexa

namespace Vexa

/-! ### Characterising the complete-segments phase -/

/-- The keep condition of the `segments[:-1]` loop, as a Boolean predicate:
non-empty clamped interval and `no_speech_prob ≤ no_speech_thresh`. -/
def keepB (thresh tso duration : ℚ) (s : ASRSeg) : Bool :=
  !decide (tso + s.start ≥ tso + min duration s.endT) &&
  !decide (s.no_speech_prob > thresh)

/-- The transcript entry emitted for a kept complete segment. -/
def emitC (tso duration : ℚ) (s : ASRSeg) : FmtSeg :=
  ⟨tso + s.start, tso + min duration s.endT, s.text, true⟩

lemma processCompleteGo_snd_fst (thresh tso d : ℚ) :
    ∀ (segs : List ASRSeg) (txts : List String) (trs : List FmtSeg) (off : Option ℚ),
      (processCompleteGo thresh tso d segs txts trs off).2.1 =
        trs ++ (segs.filter (keepB thresh tso d)).map (emitC tso d) := by
  intro segs
  induction segs with
  | nil => intro txts trs off; simp [processCompleteGo]
  | cons s ss ih =>
    intro txts trs off
    rw [processCompleteGo]
    by_cases h1 : tso + s.start ≥ tso + min d s.endT
    · rw [if_pos h1, ih]
      have : keepB thresh tso d s = false := by
        simp [keepB, h1]
      simp [List.filter_cons, this]
    · rw [if_neg h1]
      by_cases h2 : s.no_speech_prob > thresh
      · rw [if_pos h2, ih]
        have : keepB thresh tso d s = false := by
          simp [keepB, h2]
        simp [List.filter_cons, this]
      · rw [if_neg h2, ih]
        have : keepB thresh tso d s = true := by
          simp [keepB, h1, h2]
        simp [List.filter_cons, this, emitC]

lemma processCompleteGo_fst (thresh tso d : ℚ) :
    ∀ (segs : List ASRSeg) (txts : List String) (trs : List FmtSeg) (off : Option ℚ),
      (processCompleteGo thresh tso d segs txts trs off).1 =
        txts ++ segs.map ASRSeg.text := by
  intro segs
  induction segs with
  | nil => intro txts trs off; simp [processCompleteGo]
  | cons s ss ih =>
    intro txts trs off
    rw [processCompleteGo]
    by_cases h1 : tso + s.start ≥ tso + min d s.endT
    · rw [if_pos h1, ih]; simp
    · rw [if_neg h1]
      by_cases h2 : s.no_speech_prob > thresh
      · rw [if_pos h2, ih]; simp
      · rw [if_neg h2, ih]; simp

end Vexa

namespace Vexa

lemma dropLast_cons_concat (a : ASRSeg) (l : List ASRSeg) (b : ASRSeg) :
    (a :: (l ++ [b])).dropLast = a :: l := by
  rw [← List.cons_append, List.dropLast_concat]

/-- With the last segment passing the no-speech gate and the repeat counter
below threshold, one pass appends to the transcript exactly the non-last
segments that have a non-empty clamped interval and
`no_speech_prob ≤ no_speech_thresh`. -/
lemma updateSegments_transcript_of_le (st : WLState) (init : List ASRSeg)
    (lastSeg : ASRSeg) (d : ℚ)
    (h1 : lastSeg.no_speech_prob ≤ st.no_speech_thresh)
    (h2 : st.same_output_count < st.same_output_threshold) :
    (updateSegments st (init ++ [lastSeg]) d).1.transcript =
      st.transcript ++
        (init.filter (keepB st.no_speech_thresh st.timestamp_offset d)).map
          (emitC st.timestamp_offset d) := by
  cases init with
  | nil =>
    simp only [List.nil_append, updateSegments, List.getLastD_nil]
    have hg : ¬(1 < ([lastSeg] : List ASRSeg).length ∧
        lastSeg.no_speech_prob ≤ st.no_speech_thresh) := by simp
    rw [if_neg hg]
    split_ifs with hrep hcnt hda
    · omega
    · omega
    · simp
    · simp
  | cons i0 is =>
    simp only [List.cons_append, updateSegments, List.getLastD_concat,
      dropLast_cons_concat]
    have hg : (1 < (i0 :: (is ++ [lastSeg])).length ∧
        lastSeg.no_speech_prob ≤ st.no_speech_thresh) := by
      constructor
      · simp
      · exact h1
    rw [if_pos hg, processComplete, processCompleteGo_snd_fst]
    split_ifs with hrep hcnt hda
    · omega
    · omega
    · simp
    · simp

/-- When the last segment fails the no-speech gate, the whole pass leaves the
transcript untouched (the non-last segments are not even considered). -/
lemma updateSegments_transcript_of_gt (st : WLState) (init : List ASRSeg)
    (lastSeg : ASRSeg) (d : ℚ)
    (h1 : st.no_speech_thresh < lastSeg.no_speech_prob) :
    (updateSegments st (init ++ [lastSeg]) d).1.transcript = st.transcript := by
  have hle : ¬(lastSeg.no_speech_prob ≤ st.no_speech_thresh) := not_le.2 h1
  cases init with
  | nil =>
    simp [updateSegments, hle]
  | cons i0 is =>
    simp [updateSegments, hle, List.getLastD_concat, dropLast_cons_concat]

/-- Reassignment of the two fields `update_segments` never reads. -/
def setLogCR (f g : ASRSeg → ℚ) (s : ASRSeg) : ASRSeg :=
  { s with avg_logprob := f s, compression_ratio := g s }

lemma processCompleteGo_setLogCR (thresh tso d : ℚ) (f g : ASRSeg → ℚ) :
    ∀ (segs : List ASRSeg) (txts : List String) (trs : List FmtSeg) (off : Option ℚ),
      processCompleteGo thresh tso d (segs.map (setLogCR f g)) txts trs off =
        processCompleteGo thresh tso d segs txts trs off := by
  intro segs
  induction segs with
  | nil => intro txts trs off; rfl
  | cons s ss ih =>
    intro txts trs off
    rw [List.map_cons, processCompleteGo, processCompleteGo]
    simp only [setLogCR]
    split_ifs <;> rw [ih]

lemma getLastD_map (h : ASRSeg → ASRSeg) :
    ∀ (l : List ASRSeg) (dft : ASRSeg), (l.map h).getLastD (h dft) = h (l.getLastD dft) := by
  intro l
  induction l with
  | nil => intro dft; rfl
  | cons x xs ih =>
    intro dft
    rw [List.map_cons, List.getLastD_cons, List.getLastD_cons]
    exact ih x

lemma setLogCR_start (f g : ASRSeg → ℚ) (s : ASRSeg) :
    (setLogCR f g s).start = s.start := rfl

lemma setLogCR_endT (f g : ASRSeg → ℚ) (s : ASRSeg) :
    (setLogCR f g s).endT = s.endT := rfl

lemma setLogCR_text (f g : ASRSeg → ℚ) (s : ASRSeg) :
    (setLogCR f g s).text = s.text := rfl

lemma setLogCR_nsp (f g : ASRSeg → ℚ) (s : ASRSeg) :
    (setLogCR f g s).no_speech_prob = s.no_speech_prob := rfl

/-- `update_segments` never consults `avg_logprob` or `compression_ratio`:
reassigning those two fields arbitrarily changes nothing. -/
lemma updateSegments_setLogCR (st : WLState) (segs : List ASRSeg) (d : ℚ)
    (f g : ASRSeg → ℚ) :
    updateSegments st (segs.map (setLogCR f g)) d = updateSegments st segs d := by
  cases segs with
  | nil => rfl
  | cons s0 rest =>
    have e1 : (rest.map (setLogCR f g)).getLastD (setLogCR f g s0) =
        setLogCR f g (rest.getLastD s0) := getLastD_map _ rest s0
    have e2 : (setLogCR f g s0 :: rest.map (setLogCR f g)).dropLast =
        ((s0 :: rest).dropLast).map (setLogCR f g) := by
      rw [← List.map_cons, ← List.map_dropLast]
    rw [List.map_cons]
    simp only [updateSegments, e1, e2, List.length_cons, List.length_map,
      processComplete, processCompleteGo_setLogCR, setLogCR_start, setLogCR_endT,
      setLogCR_text, setLogCR_nsp]

end Vexa

namespace Vexa

lemma keepB_false_of_nsp {thresh tso d : ℚ} {s : ASRSeg}
    (h : thresh < s.no_speech_prob) : keepB thresh tso d s = false := by
  have hd : decide (s.no_speech_prob > thresh) = true := decide_eq_true h
  simp [keepB, hd]

lemma keepB_true_of {thresh tso d : ℚ} {s : ASRSeg}
    (h1 : tso + s.start < tso + min d s.endT) (h2 : s.no_speech_prob ≤ thresh) :
    keepB thresh tso d s = true := by
  simp only [keepB, Bool.and_eq_true, Bool.not_eq_true', decide_eq_false_iff_not]
  exact ⟨not_le.2 h1, not_lt.2 h2⟩

/-- **C2, counterexample.**  A segment with `no_speech_prob = 0.5`,
`avg_logprob = 0` and `compression_ratio = 1` passes all three of the claim's
default filters (0.6 / −1.0 / 2.4), yet the stabiliser drops it: the code's
only filter is `no_speech_prob > no_speech_thresh` with
`no_speech_thresh = 0.45`. -/
theorem stabiliser_filter_counterexample :
    claimSegmentKept ⟨0, 1, "hello", 1/2, 0, 1⟩ = true ∧
    (updateSegments initWLState
        [⟨0, 1, "hello", 1/2, 0, 1⟩, ⟨1, 2, "world", 0, 0, 1⟩] 5).1.transcript = [] := by
  constructor
  · simp only [claimSegmentKept, decide_eq_true_eq]
    norm_num
  · have h := updateSegments_transcript_of_le initWLState
      [⟨0, 1, "hello", 1/2, 0, 1⟩] ⟨1, 2, "world", 0, 0, 1⟩ 5
      (by norm_num [initWLState]) (by norm_num [initWLState])
    rw [show ([⟨0, 1, "hello", 1/2, 0, 1⟩] ++ [⟨1, 2, "world", 0, 0, 1⟩] :
        List ASRSeg) = [⟨0, 1, "hello", 1/2, 0, 1⟩, ⟨1, 2, "world", 0, 0, 1⟩]
      from rfl] at h
    rw [h]
    have hk : keepB (45/100) 0 5 (⟨0, 1, "hello", 1/2, 0, 1⟩ : ASRSeg) = false :=
      keepB_false_of_nsp (by norm_num)
    simp only [initWLState, List.filter_cons, hk, List.filter_nil,
      Bool.false_eq_true, if_false, List.map_nil, List.nil_append]

/-- **C2, amended.**  In the hypothesis stabiliser as implemented, when the
last segment of a pass passes the single no-speech gate
(`no_speech_prob ≤ no_speech_thresh`, 0.45 by default) and no repeat
promotion fires, a non-last segment is kept in the emitted transcript exactly
when its clamped interval is non-empty and its own
`no_speech_prob ≤ no_speech_thresh`; when the last segment fails the gate the
pass emits nothing at all; and `avg_logprob` / `compression_ratio` are never
consulted — reassigning them arbitrarily leaves the result unchanged. -/
theorem stabiliser_filter_spec (st : WLState) (init : List ASRSeg)
    (lastSeg : ASRSeg) (d : ℚ) :
    (lastSeg.no_speech_prob ≤ st.no_speech_thresh →
      st.same_output_count < st.same_output_threshold →
      (updateSegments st (init ++ [lastSeg]) d).1.transcript =
        st.transcript ++
          (init.filter (keepB st.no_speech_thresh st.timestamp_offset d)).map
            (emitC st.timestamp_offset d)) ∧
    (st.no_speech_thresh < lastSeg.no_speech_prob →
      (updateSegments st (init ++ [lastSeg]) d).1.transcript = st.transcript) ∧
    (∀ f g : ASRSeg → ℚ,
      updateSegments st ((init ++ [lastSeg]).map (setLogCR f g)) d =
        updateSegments st (init ++ [lastSeg]) d) :=
  ⟨fun h1 h2 => updateSegments_transcript_of_le st init lastSeg d h1 h2,
   fun h1 => updateSegments_transcript_of_gt st init lastSeg d h1,
   fun f g => updateSegments_setLogCR st (init ++ [lastSeg]) d f g⟩

/-- Witness for `stabiliser_filter_spec`: a kept segment (0.4 ≤ 0.45), a
dropped one (0.5 > 0.45), and a pass whose last segment fails the gate. -/
theorem stabiliser_filter_spec_witness :
    (updateSegments initWLState
        [⟨0, 1, "hello", 2/5, 0, 1⟩, ⟨1, 3, "noisy", 1/2, 0, 1⟩,
         ⟨3, 4, "tail", 0, 0, 1⟩] 5).1.transcript = [⟨0, 1, "hello", true⟩] ∧
    (updateSegments initWLState
        [⟨0, 1, "x", 0, 0, 1⟩, ⟨1, 2, "loud", 9/10, 0, 1⟩] 5).1.transcript = [] := by
  constructor
  · have h := (stabiliser_filter_spec initWLState
      [⟨0, 1, "hello", 2/5, 0, 1⟩, ⟨1, 3, "noisy", 1/2, 0, 1⟩]
      ⟨3, 4, "tail", 0, 0, 1⟩ 5).1
      (by norm_num [initWLState]) (by norm_num [initWLState])
    rw [show ([⟨0, 1, "hello", 2/5, 0, 1⟩, ⟨1, 3, "noisy", 1/2, 0, 1⟩] ++
        [⟨3, 4, "tail", 0, 0, 1⟩] : List ASRSeg) =
        [⟨0, 1, "hello", 2/5, 0, 1⟩, ⟨1, 3, "noisy", 1/2, 0, 1⟩,
         ⟨3, 4, "tail", 0, 0, 1⟩] from rfl] at h
    rw [h]
    have hk1 : keepB (45/100) 0 5 (⟨0, 1, "hello", 2/5, 0, 1⟩ : ASRSeg) = true := by
      apply keepB_true_of
      · show (0 : ℚ) + 0 < 0 + min 5 1
        norm_num [min_def]
      · show (2 : ℚ)/5 ≤ 45/100
        norm_num
    have hk2 : keepB (45/100) 0 5 (⟨1, 3, "noisy", 1/2, 0, 1⟩ : ASRSeg) = false :=
      keepB_false_of_nsp (by norm_num)
    simp only [initWLState, List.filter_cons, hk1, hk2, Bool.false_eq_true,
      if_true, if_false, List.filter_nil, List.map_cons, List.map_nil,
      List.nil_append]
    simp only [emitC, List.cons.injEq, FmtSeg.mk.injEq, and_true]
    norm_num [min_def]
  · exact (stabiliser_filter_spec initWLState [⟨0, 1, "x", 0, 0, 1⟩]
      ⟨1, 2, "loud", 9/10, 0, 1⟩ 5).2.1 (by norm_num [initWLState])

end Vexa

namespace Vexa

lemma updateSegments_singleton_nomatch (st : WLState) (s : ASRSeg) (d : ℚ)
    (h : s.no_speech_prob ≤ st.no_speech_thresh)
    (hno : ¬(pyStrip s.text = pyStrip st.prev_out ∧ s.text ≠ "")) :
    (updateSegments st [s] d).1 =
      { st with same_output_count := 0
                end_time_for_same_output := none
                prev_out := s.text } := by
  simp [updateSegments, h, hno]

lemma updateSegments_singleton_repeat (st : WLState) (s : ASRSeg) (d : ℚ)
    (h : s.no_speech_prob ≤ st.no_speech_thresh)
    (hmatch : pyStrip s.text = pyStrip st.prev_out) (hne : s.text ≠ "")
    (hsmall : st.same_output_count + 1 ≤ st.same_output_threshold) :
    (updateSegments st [s] d).1 =
      { st with same_output_count := st.same_output_count + 1
                end_time_for_same_output :=
                  some (st.end_time_for_same_output.getD s.endT)
                prev_out := s.text } := by
  simp [updateSegments, h, hmatch, hne, Nat.not_lt.2 hsmall]

lemma updateSegments_singleton_promote (st : WLState) (s : ASRSeg) (d e : ℚ)
    (h : s.no_speech_prob ≤ st.no_speech_thresh)
    (hmatch : pyStrip s.text = pyStrip st.prev_out) (hne : s.text ≠ "")
    (hbig : st.same_output_threshold < st.same_output_count + 1)
    (he : st.end_time_for_same_output = some e)
    (htext : st.text = []) :
    (updateSegments st [s] d).1 =
      { st with text := [s.text]
                transcript := st.transcript ++
                  [⟨st.timestamp_offset, st.timestamp_offset + min d e, s.text, true⟩]
                same_output_count := 0
                end_time_for_same_output := none
                timestamp_offset := st.timestamp_offset + min d e } := by
  simp [updateSegments, h, hmatch, hne, hbig, he, htext]

end Vexa

namespace Vexa

lemma runPasses_append_single (st : WLState) (ps : List (List ASRSeg × ℚ))
    (p : List ASRSeg × ℚ) :
    runPasses st (ps ++ [p]) = (updateSegments (runPasses st ps) p.1 p.2).1 := by
  simp [runPasses, List.foldl_append]

lemma ne_empty_of_strip {T : String} (hTs : pyStrip T ≠ "") : T ≠ "" := by
  intro hT
  subst hT
  exact hTs rfl

lemma repeat_run_state (t0 a d : ℚ) (f : ℕ → ℚ) (T : String)
    (hTs : pyStrip T ≠ "") :
    ∀ n, 1 ≤ n → n ≤ 11 →
    runPasses { initWLState with timestamp_offset := t0 }
        ((List.range n).map (fun i => ([⟨a, f i, T, 0, 0, 1⟩], d))) =
      { initWLState with
          timestamp_offset := t0
          prev_out := T
          same_output_count := n - 1
          end_time_for_same_output := if 2 ≤ n then some (f 1) else none } := by
  intro n
  induction n with
  | zero => omega
  | succ m ih =>
    intro _ hle
    by_cases hm : m = 0
    · subst hm
      rw [show (List.range 1).map (fun i => (([⟨a, f i, T, 0, 0, 1⟩] : List ASRSeg), d)) =
          [([⟨a, f 0, T, 0, 0, 1⟩], d)] from rfl]
      rw [show ([([⟨a, f 0, T, 0, 0, 1⟩], d)] :
          List (List ASRSeg × ℚ)) = [] ++ [([⟨a, f 0, T, 0, 0, 1⟩], d)] from rfl,
        runPasses_append_single]
      have h := updateSegments_singleton_nomatch
        { initWLState with timestamp_offset := t0 } ⟨a, f 0, T, 0, 0, 1⟩ d
        (by norm_num [initWLState])
        (by
          intro hc
          exact hTs (by simpa [initWLState] using hc.1))
      simp only [runPasses, List.foldl_nil] at h ⊢
      rw [h]
      simp [initWLState]
    · have hm1 : 1 ≤ m := by omega
      have hm11 : m ≤ 11 := by omega
      have hst := ih hm1 hm11
      rw [List.range_succ, List.map_append]
      simp only [List.map_cons, List.map_nil]
      rw [runPasses_append_single, hst]
      have h := updateSegments_singleton_repeat
        { initWLState with
            timestamp_offset := t0
            prev_out := T
            same_output_count := m - 1
            end_time_for_same_output := if 2 ≤ m then some (f 1) else none }
        ⟨a, f m, T, 0, 0, 1⟩ d
        (by norm_num [initWLState]) (by rfl) (ne_empty_of_strip hTs)
        (by simp [initWLState]; omega)
      rw [h]
      have hgd : (if 2 ≤ m then some (f 1) else none).getD (f m) = f 1 := by
        by_cases h2 : 2 ≤ m
        · rw [if_pos h2]
          rfl
        · have hm1' : m = 1 := by omega
          subst hm1'
          rw [if_neg h2]
          rfl
      rw [hgd, if_pos (by omega : 2 ≤ m + 1),
        show m - 1 + 1 = m + 1 - 1 by omega]

end Vexa

namespace Vexa

/-- **C3, amended.**  The repeat counter increments only from the second
identical pass on and promotion requires `same_output_count >
same_output_threshold`, so with the default threshold 10 the same non-blank
trailing text must be produced on 12 consecutive passes before it is
promoted; the promoted final segment ends at `timestamp_offset +
min(duration, e)` where `e` is the segment end recorded on the *first*
repetition (the second pass of the run, `f 1` below) — not the last — and the
timestamp offset advances by that same `min(duration, e)`. -/
theorem stabiliser_promotion_spec (t0 a d : ℚ) (f : ℕ → ℚ) (T : String)
    (hTs : pyStrip T ≠ "") :
    runPasses { initWLState with timestamp_offset := t0 }
        ((List.range 12).map (fun i => ([⟨a, f i, T, 0, 0, 1⟩], d))) =
      { initWLState with
          timestamp_offset := t0 + min d (f 1)
          text := [T]
          transcript := [⟨t0, t0 + min d (f 1), T, true⟩]
          prev_out := T } := by
  have hst := repeat_run_state t0 a d f T hTs 11 (by norm_num) (le_refl 11)
  rw [show (12 : ℕ) = 11 + 1 from rfl, List.range_succ, List.map_append]
  simp only [List.map_cons, List.map_nil]
  rw [runPasses_append_single, hst]
  have h := updateSegments_singleton_promote
    { initWLState with
        timestamp_offset := t0
        prev_out := T
        same_output_count := 11 - 1
        end_time_for_same_output := if 2 ≤ 11 then some (f 1) else none }
    ⟨a, f 11, T, 0, 0, 1⟩ d (f 1)
    (by norm_num [initWLState]) (by rfl) (ne_empty_of_strip hTs)
    (by simp [initWLState])
    (by simp [initWLState])
    (by simp [initWLState])
  rw [h]
  simp [initWLState]

/-- Witness for `stabiliser_promotion_spec`: twelve passes of `"hello"` with
pass ends 0,1,…,11 and 30-second chunks promote one final segment ending at
`min(30, 1) = 1` (the end of the first repetition). -/
theorem stab_promo_witness :
    runPasses initWLState
        ((List.range 12).map (fun i => ([⟨0, Nat.cast i, "hello", 0, 0, 1⟩], 30))) =
      { initWLState with
          timestamp_offset := 1
          text := ["hello"]
          transcript := [⟨0, 1, "hello", true⟩]
          prev_out := "hello" } := by
  have h := stabiliser_promotion_spec 0 0 30 (Nat.cast : ℕ → ℚ) "hello" (by decide)
  rw [show initWLState = { initWLState with timestamp_offset := 0 } from rfl, h]
  have hmin : min (30 : ℚ) ((1 : ℕ) : ℚ) = 1 := by
    norm_num [min_def]
  simp only [hmin]
  norm_num

/-- **C3, counterexample.**  Eleven consecutive passes producing the same
trailing partial `"hello"` — which satisfies the claim's "at least 10
consecutive passes with no newer content" under any reading — yield no
promotion at all: the transcript stays empty and the timestamp offset stays
at 0 (the counter reaches only 10, and promotion needs it to exceed 10). -/
theorem stab_promo_counterexample :
    (runPasses initWLState
        ((List.range 11).map (fun i => ([⟨0, Nat.cast i, "hello", 0, 0, 1⟩], 30)))).transcript
      = [] ∧
    (runPasses initWLState
        ((List.range 11).map (fun i => ([⟨0, Nat.cast i, "hello", 0, 0, 1⟩], 30)))).timestamp_offset
      = 0 := by
  have h := repeat_run_state 0 0 30 (Nat.cast : ℕ → ℚ) "hello" (by decide) 11
    (by norm_num) (le_refl 11)
  rw [show initWLState = { initWLState with timestamp_offset := 0 } from rfl, h]
  simp [initWLState]

end Vexa

namespace Vexa

/-! ## WhisperLive speaker attribution (`TranscriptSpeakerMatcher`)

`_create_speaker_activity_segments` and `match`, with `datetime`s as rational
seconds.  Python's stable `list.sort(key=...)` is embedded as insertion sort
with a strict "goes strictly before" test, which is stable and sorts by the
same key. -/

/-- One `SpeakerMeta` entry (a snapshot of one speaker's mic-activity bits,
100 ms slots trailing backwards from `timestamp`). -/
structure SpeakerMeta where
  user_id : String
  name : String
  timestamp : ℚ
  meta_bits : String
  deriving DecidableEq

/-- `SpeakerActivitySegment`: a merged continuous period of one speaker's
activity. -/
structure SpeakerActivitySegment where
  speaker_name : String
  speaker_id : String
  start_time : ℚ
  end_time : ℚ
  avg_mic_level : ℚ
  deriving DecidableEq

/-- The fields of `TranscriptSegment` that `match` reads and writes. -/
structure TranscriptSegment where
  content : String
  start_timestamp : ℚ
  end_timestamp : ℚ
  speaker : Option String
  speaker_id : Option String
  deriving DecidableEq

/-- Insert `x` into `l` after every element that goes strictly before it
(a stable placement). -/
def insertSorted {α : Type} (lt : α → α → Bool) (x : α) : List α → List α
  | [] => [x]
  | y :: ys => if lt y x then y :: insertSorted lt x ys else x :: y :: ys

/-- Python's stable `list.sort` with strict comparison `lt` derived from the
sort key (`reverse=True` is expressed by flipping `lt`). -/
def pySort {α : Type} (lt : α → α → Bool) : List α → List α
  | [] => []
  | x :: xs => insertSorted lt x (pySort lt xs)

/-- `sorted(speaker_meta_list, key=lambda sm: (sm.timestamp, sm.user_id))`. -/
def metaLt (a b : SpeakerMeta) : Bool :=
  a.timestamp < b.timestamp ∨ (a.timestamp = b.timestamp ∧ a.user_id < b.user_id)

/-- First-occurrence order of `user_id`s (Python dict insertion order of
`grouped_by_user`). -/
def groupKeys (metas : List SpeakerMeta) : List String :=
  metas.foldl (fun ks sm => if sm.user_id ∈ ks then ks else ks ++ [sm.user_id]) []

/-- Expand one entry's `meta_bits` into 100 ms active slots:
bit `i` of `n` spans `[timestamp − (n−i)·0.1, timestamp − (n−i−1)·0.1]`. -/
def slotsOf (sm : SpeakerMeta) : List (ℚ × ℚ) :=
  let bits := sm.meta_bits.data
  let n := bits.length
  (List.range n).filterMap (fun i =>
    if bits.getD i '0' = '1' then
      some (sm.timestamp - ((n : ℚ) - (i : ℚ)) * (1/10),
            sm.timestamp - ((n : ℚ) - (i : ℚ) - 1) * (1/10))
    else none)

/-- Merge a start-sorted list of slots into maximal overlapping-or-touching
runs (`next_start <= current_end` extends the current run). -/
def mergeSlots : ℚ × ℚ → List (ℚ × ℚ) → List (ℚ × ℚ)
  | cur, [] => [cur]
  | cur, nxt :: rest =>
    if nxt.1 ≤ cur.2 then mergeSlots (cur.1, max cur.2 nxt.2) rest
    else cur :: mergeSlots nxt rest

/-- The per-user body of `_create_speaker_activity_segments`: collect the
user's active slots, sort by start, merge, and label with the user's first
entry's name (`avg_mic_level = 1.0`). -/
def userActivitySegments (uid : String) (metas : List SpeakerMeta) :
    List SpeakerActivitySegment :=
  match metas.filter (fun sm => sm.user_id = uid) with
  | [] => []
  | m0 :: ms =>
    match pySort (fun a b => a.1 < b.1) (((m0 :: ms).map slotsOf).flatten) with
    | [] => []
    | s0 :: ss => (mergeSlots s0 ss).map (fun p => ⟨m0.name, uid, p.1, p.2, 1⟩)

/-- `TranscriptSpeakerMatcher._create_speaker_activity_segments`. -/
def createSpeakerActivitySegments (metas : List SpeakerMeta) :
    List SpeakerActivitySegment :=
  if metas = [] then []
  else
    let sorted := pySort metaLt metas
    pySort (fun a b => a.start_time < b.start_time)
      (((groupKeys sorted).map (fun uid => userActivitySegments uid sorted)).flatten)

/-- `SpeakerActivitySegment.intersection_with`. -/
def intersectionWith (p : SpeakerActivitySegment) (tStart tEnd : ℚ) : ℚ :=
  let oS := max p.start_time tStart
  let oE := min p.end_time tEnd
  if oS < oE then oE - oS else 0

/-- The per-segment body of `TranscriptSpeakerMatcher.match`: collect the
activity periods with positive overlap, sort by overlap ratio descending
(stable), and assign the best speaker only when its ratio exceeds 0.5;
segments of non-positive duration are skipped. -/
def matchOne (t0 : ℚ) (periods : List SpeakerActivitySegment)
    (ts : TranscriptSegment) : TranscriptSegment :=
  let aS := t0 + ts.start_timestamp
  let aE := t0 + ts.end_timestamp
  let dur := aE - aS
  if dur ≤ 0 then ts
  else
    let pms := periods.filterMap (fun p =>
      let i := intersectionWith p aS aE
      if 0 < i then some (p, i / dur) else none)
    match pySort (fun m1 m2 => m1.2 > m2.2) pms with
    | [] => ts
    | best :: _ =>
      if best.2 > 1/2 then
        { ts with speaker := some best.1.speaker_name
                  speaker_id := some best.1.speaker_id }
      else ts

/-- `TranscriptSpeakerMatcher.match` (in-place mutation of the segment list
modelled as a map), with its three early returns. -/
def matchSegs (t0 : ℚ) (metas : List SpeakerMeta)
    (tsegs : List TranscriptSegment) : List TranscriptSegment :=
  if metas = [] ∨ tsegs = [] then tsegs
  else
    let periods := createSpeakerActivitySegments metas
    if periods = [] then tsegs
    else tsegs.map (matchOne t0 periods)

/-- The overlap ratio of a transcript segment against one activity period
(overlap duration over segment duration). -/
def ratioOf (t0 : ℚ) (ts : TranscriptSegment) (p : SpeakerActivitySegment) : ℚ :=
  intersectionWith p (t0 + ts.start_timestamp) (t0 + ts.end_timestamp) /
    (ts.end_timestamp - ts.start_timestamp)

end Vexa

namespace Vexa

lemma insertSorted_length {α : Type} (lt : α → α → Bool) (x : α) :
    ∀ l : List α, (insertSorted lt x l).length = l.length + 1 := by
  intro l
  induction l with
  | nil => rfl
  | cons y ys ih =>
    rw [insertSorted]
    split_ifs
    · simp [ih]
    · simp

lemma pySort_length {α : Type} (lt : α → α → Bool) :
    ∀ l : List α, (pySort lt l).length = l.length := by
  intro l
  induction l with
  | nil => rfl
  | cons x xs ih => rw [pySort, insertSorted_length, ih, List.length_cons]

lemma mem_insertSorted {α : Type} (lt : α → α → Bool) (x y : α) :
    ∀ l : List α, (y ∈ insertSorted lt x l ↔ y = x ∨ y ∈ l) := by
  intro l
  induction l with
  | nil => simp [insertSorted]
  | cons z zs ih =>
    rw [insertSorted]
    split_ifs
    · simp only [List.mem_cons, ih]
      tauto
    · simp [List.mem_cons]

lemma mem_pySort {α : Type} (lt : α → α → Bool) (y : α) :
    ∀ l : List α, (y ∈ pySort lt l ↔ y ∈ l) := by
  intro l
  induction l with
  | nil => simp [pySort]
  | cons x xs ih =>
    rw [pySort, mem_insertSorted]
    simp [ih]

/-- The head of the descending stable sort of `possible_matches` is a member
attaining the maximal overlap ratio. -/
lemma pySort_ratio_head_max :
    ∀ (l : List (SpeakerActivitySegment × ℚ)) (b : SpeakerActivitySegment × ℚ)
      (t : List (SpeakerActivitySegment × ℚ)),
      pySort (fun m1 m2 => m1.2 > m2.2) l = b :: t →
      b ∈ l ∧ ∀ x ∈ l, x.2 ≤ b.2 := by
  intro l
  induction l with
  | nil => intro b t h; exact absurd h (by simp [pySort])
  | cons x xs ih =>
    intro b t h
    rw [pySort] at h
    cases hs : pySort (fun m1 m2 => m1.2 > m2.2) xs with
    | nil =>
      have hxs : xs = [] := by
        have := pySort_length (fun m1 m2 : SpeakerActivitySegment × ℚ => m1.2 > m2.2) xs
        rw [hs] at this
        exact List.length_eq_zero.1 this.symm
      rw [hs, insertSorted] at h
      injection h with h1 h2
      subst h1
      subst hxs
      exact ⟨List.mem_cons_self _ _, by intro z hz; simp at hz; subst hz; exact le_refl _⟩
    | cons b' t' =>
      obtain ⟨hbm, hbmax⟩ := ih b' t' hs
      rw [hs, insertSorted] at h
      by_cases hbx : b'.2 > x.2
      · rw [if_pos (by simpa using hbx)] at h
        injection h with h1 h2
        subst h1
        refine ⟨List.mem_cons_of_mem _ hbm, ?_⟩
        intro z hz
        rcases List.mem_cons.1 hz with rfl | hz'
        · exact le_of_lt hbx
        · exact hbmax z hz'
      · rw [if_neg (by simpa using hbx)] at h
        injection h with h1 h2
        subst h1
        refine ⟨List.mem_cons_self _ _, ?_⟩
        intro z hz
        rcases List.mem_cons.1 hz with rfl | hz'
        · exact le_refl _
        · exact le_trans (hbmax z hz') (not_lt.1 hbx)

/-- **C5.**  Speaker attribution assigns a speaker to a transcript segment
exactly when the best overlap ratio — overlap between the segment's absolute
interval and a merged per-speaker activity interval, divided by the segment's
duration — is strictly greater than 0.5, and then to an interval attaining
the highest ratio; at a best ratio of exactly 0.5 (or lower) the segment is
left untouched, and segments of non-positive duration are skipped. -/
theorem speaker_attribution_spec (t0 : ℚ) (metas : List SpeakerMeta)
    (tsegs : List TranscriptSegment) (i : ℕ) (ts o : TranscriptSegment)
    (hts : tsegs.get? i = some ts)
    (ho : (matchSegs t0 metas tsegs).get? i = some o) :
    (ts.end_timestamp - ts.start_timestamp ≤ 0 → o = ts) ∧
    ((∀ p ∈ createSpeakerActivitySegments metas, ratioOf t0 ts p ≤ 1/2) → o = ts) ∧
    (∀ p ∈ createSpeakerActivitySegments metas,
      0 < ts.end_timestamp - ts.start_timestamp →
      1/2 < ratioOf t0 ts p →
      (∀ q ∈ createSpeakerActivitySegments metas,
        ratioOf t0 ts q ≤ ratioOf t0 ts p) →
      ∃ b ∈ createSpeakerActivitySegments metas,
        o.speaker = some b.speaker_name ∧ o.speaker_id = some b.speaker_id ∧
        ratioOf t0 ts b = ratioOf t0 ts p) := by
  have hdur : t0 + ts.end_timestamp - (t0 + ts.start_timestamp) =
      ts.end_timestamp - ts.start_timestamp := by ring
  by_cases hearly : metas = [] ∨ tsegs = []
  · have hout : matchSegs t0 metas tsegs = tsegs := by
      rw [matchSegs, if_pos hearly]
    rw [hout, hts, Option.some_inj] at ho
    subst ho
    refine ⟨fun _ => rfl, fun _ => rfl, ?_⟩
    intro p hp _ _ _
    rcases hearly with h | h
    · rw [h] at hp
      rw [createSpeakerActivitySegments, if_pos rfl] at hp
      exact absurd hp (List.not_mem_nil p)
    · rw [h] at hts
      simp at hts
  · by_cases hper : createSpeakerActivitySegments metas = []
    · have hout : matchSegs t0 metas tsegs = tsegs := by
        rw [matchSegs, if_neg hearly]
        simp [hper]
      rw [hout, hts, Option.some_inj] at ho
      subst ho
      refine ⟨fun _ => rfl, fun _ => rfl, ?_⟩
      intro p hp
      rw [hper] at hp
      exact absurd hp (List.not_mem_nil p)
    · have hout : matchSegs t0 metas tsegs =
          tsegs.map (matchOne t0 (createSpeakerActivitySegments metas)) := by
        rw [matchSegs, if_neg hearly]
        simp [hper]
      rw [hout, List.get?_map, hts, Option.map_some', Option.some_inj] at ho
      subst ho
      set periods := createSpeakerActivitySegments metas with hperiods
      constructor
      · -- non-positive duration: the segment is skipped
        intro hd
        simp only [matchOne]
        rw [if_pos (by rw [hdur]; exact hd)]
      constructor
      · -- every ratio ≤ 1/2 (in particular best = 1/2 exactly): unassigned
        intro hall
        simp only [matchOne]
        by_cases hd : t0 + ts.end_timestamp - (t0 + ts.start_timestamp) ≤ 0
        · rw [if_pos hd]
        · rw [if_neg hd]
          cases hsort : pySort (fun m1 m2 => m1.2 > m2.2)
              (periods.filterMap (fun p =>
                if 0 < intersectionWith p (t0 + ts.start_timestamp)
                    (t0 + ts.end_timestamp) then
                  some (p, intersectionWith p (t0 + ts.start_timestamp)
                    (t0 + ts.end_timestamp) /
                    (t0 + ts.end_timestamp - (t0 + ts.start_timestamp)))
                else none)) with
          | nil => rfl
          | cons best rest =>
            show (if best.2 > 1/2 then
                { ts with speaker := some best.1.speaker_name
                          speaker_id := some best.1.speaker_id }
              else ts) = ts
            obtain ⟨hbm, _⟩ := pySort_ratio_head_max _ best rest hsort
            obtain ⟨q, hq, hqe⟩ := List.mem_filterMap.1 hbm
            have hb2 : best.2 = ratioOf t0 ts q := by
              by_cases hi : 0 < intersectionWith q (t0 + ts.start_timestamp)
                  (t0 + ts.end_timestamp)
              · rw [if_pos hi, Option.some_inj] at hqe
                rw [← hqe]
                simp only [ratioOf, hdur]
              · rw [if_neg hi] at hqe
                exact absurd hqe (Option.noConfusion)
            rw [if_neg]
            rw [hb2]
            exact not_lt.2 (hall q hq)
      · -- some period has the maximal ratio and it exceeds 1/2: assigned
        intro p hp hdpos hphalf hpmax
        simp only [matchOne]
        rw [if_neg (by rw [hdur]; exact not_le.2 hdpos)]
        have hdpos2 : 0 < t0 + ts.end_timestamp - (t0 + ts.start_timestamp) := by
          rw [hdur]; exact hdpos
        have hip : 0 < intersectionWith p (t0 + ts.start_timestamp)
            (t0 + ts.end_timestamp) := by
          by_contra hile
          push_neg at hile
          have hle : ratioOf t0 ts p ≤ 0 := by
            rw [ratioOf, ← hdur]
            exact div_nonpos_of_nonpos_of_nonneg hile (le_of_lt hdpos2)
          linarith
        have hpmem : (p, intersectionWith p (t0 + ts.start_timestamp)
            (t0 + ts.end_timestamp) /
            (t0 + ts.end_timestamp - (t0 + ts.start_timestamp))) ∈
            periods.filterMap (fun q =>
              if 0 < intersectionWith q (t0 + ts.start_timestamp)
                  (t0 + ts.end_timestamp) then
                some (q, intersectionWith q (t0 + ts.start_timestamp)
                  (t0 + ts.end_timestamp) /
                  (t0 + ts.end_timestamp - (t0 + ts.start_timestamp)))
              else none) :=
          List.mem_filterMap.2 ⟨p, hp, by rw [if_pos hip]⟩
        cases hsort : pySort (fun m1 m2 => m1.2 > m2.2)
            (periods.filterMap (fun q =>
              if 0 < intersectionWith q (t0 + ts.start_timestamp)
                  (t0 + ts.end_timestamp) then
                some (q, intersectionWith q (t0 + ts.start_timestamp)
                  (t0 + ts.end_timestamp) /
                  (t0 + ts.end_timestamp - (t0 + ts.start_timestamp)))
              else none)) with
        | nil =>
          have hlen := pySort_length
            (fun m1 m2 : SpeakerActivitySegment × ℚ => m1.2 > m2.2)
            (periods.filterMap (fun q =>
              if 0 < intersectionWith q (t0 + ts.start_timestamp)
                  (t0 + ts.end_timestamp) then
                some (q, intersectionWith q (t0 + ts.start_timestamp)
                  (t0 + ts.end_timestamp) /
                  (t0 + ts.end_timestamp - (t0 + ts.start_timestamp)))
              else none))
          rw [hsort] at hlen
          have hnil := List.length_eq_zero.1 hlen.symm
          rw [hnil] at hpmem
          exact absurd hpmem (List.not_mem_nil _)
        | cons best rest =>
          show ∃ b ∈ periods,
              (if best.2 > 1/2 then
                { ts with speaker := some best.1.speaker_name
                          speaker_id := some best.1.speaker_id }
              else ts).speaker = some b.speaker_name ∧
              (if best.2 > 1/2 then
                { ts with speaker := some best.1.speaker_name
                          speaker_id := some best.1.speaker_id }
              else ts).speaker_id = some b.speaker_id ∧
              ratioOf t0 ts b = ratioOf t0 ts p
          obtain ⟨hbm, hbmax⟩ := pySort_ratio_head_max _ best rest hsort
          obtain ⟨q, hq, hqe⟩ := List.mem_filterMap.1 hbm
          have hb2 : best.1 = q ∧ best.2 = ratioOf t0 ts q := by
            by_cases hi : 0 < intersectionWith q (t0 + ts.start_timestamp)
                (t0 + ts.end_timestamp)
            · rw [if_pos hi, Option.some_inj] at hqe
              rw [← hqe]
              exact ⟨rfl, by simp only [ratioOf, hdur]⟩
            · rw [if_neg hi] at hqe
              exact absurd hqe (Option.noConfusion)
          have hple : ratioOf t0 ts p ≤ best.2 := by
            have hx := hbmax _ hpmem
            simpa [ratioOf, hdur] using hx
          have hbeq : best.2 = ratioOf t0 ts p :=
            le_antisymm (hb2.2 ▸ hpmax q hq) hple
          rw [if_pos (by rw [hbeq]; exact hphalf)]
          exact ⟨q, hq, by simp [hb2.1], by simp [hb2.1], by rw [← hb2.2, hbeq]⟩

/-- Witness for `speaker_attribution_spec`: a speaker active on
`[1.9, 2]` is assigned to the segment `[1.9, 2]` (ratio 1) and not to the
segment `[0, 2]` (ratio 1/20 ≤ 1/2). -/
theorem speaker_attribution_spec_witness :
    matchSegs 0 [⟨"A", "Alice", 2, "1"⟩] [⟨"hi", 19/10, 2, none, none⟩] =
      [⟨"hi", 19/10, 2, some "Alice", some "A"⟩] ∧
    matchSegs 0 [⟨"A", "Alice", 2, "1"⟩] [⟨"x", 0, 2, none, none⟩] =
      [⟨"x", 0, 2, none, none⟩] := by
  have hper : createSpeakerActivitySegments [(⟨"A", "Alice", 2, "1"⟩ : SpeakerMeta)] =
      [⟨"Alice", "A", 19/10, 2, 1⟩] := by
    norm_num [createSpeakerActivitySegments, pySort, insertSorted, groupKeys,
      userActivitySegments, slotsOf, mergeSlots, List.range_succ, List.range_zero,
      List.filterMap, metaLt]
  have hEval2 : matchSegs 0 [⟨"A", "Alice", 2, "1"⟩] [⟨"x", 0, 2, none, none⟩] =
      [⟨"x", 0, 2, none, none⟩] := by
    norm_num [matchSegs, hper, matchOne, intersectionWith, pySort, insertSorted,
      List.filterMap, max_def, min_def]
  constructor
  · norm_num [matchSegs, hper, matchOne, intersectionWith, pySort, insertSorted,
      List.filterMap, max_def, min_def]
  · have happ := (speaker_attribution_spec 0 [⟨"A", "Alice", 2, "1"⟩]
      [⟨"x", 0, 2, none, none⟩] 0 ⟨"x", 0, 2, none, none⟩ ⟨"x", 0, 2, none, none⟩
      rfl (by rw [hEval2]; rfl)).2.1 (by
        intro p hp
        rw [hper] at hp
        have hp' : p = ⟨"Alice", "A", 19/10, 2, 1⟩ := by
          simpa using hp
        subst hp'
        norm_num [ratioOf, intersectionWith, max_def, min_def])
    exact hEval2

end Vexa

namespace Vexa

/-! ## Storage clients (`shared_models/storage.py`)

`LocalStorageClient` key normalization (`os.path.normpath` for POSIX paths,
embedded at the character level) and the file operations of both clients.
File contents are abstract byte lists; the filesystem / object store is a
key-to-bytes association list. -/

/-- Python `str.split('/')` (keeps empty components). `acc` is the current
component, reversed. -/
def splitSlash : List Char → List Char → List (List Char)
  | [], acc => [acc.reverse]
  | c :: cs, acc =>
    if c = '/' then acc.reverse :: splitSlash cs [] else splitSlash cs (c :: acc)

/-- `'/'.join(comps)`. -/
def joinSlash : List (List Char) → List Char
  | [] => []
  | [c] => c
  | c :: c2 :: cs => c ++ '/' :: joinSlash (c2 :: cs)

/-- `cs` starts with the pattern `pre` (Python `str.startswith`). -/
def startsWithCh : List Char → List Char → Bool
  | [], _ => true
  | _ :: _, [] => false
  | p :: ps, c :: cs => p = c && startsWithCh ps cs

/-- The component loop of `posixpath.normpath`: `''` and `'.'` are skipped,
`'..'` pops the last kept component unless there is nothing to pop (then,
for relative paths, it is kept; at an absolute root it is dropped). -/
def normFold (absolute : Bool) : List (List Char) → List (List Char) → List (List Char)
  | [], acc => acc
  | comp :: rest, acc =>
    if comp = [] ∨ comp = ['.'] then normFold absolute rest acc
    else if comp ≠ ['.', '.'] ∨ (¬absolute ∧ acc = []) ∨
        (acc ≠ [] ∧ acc.getLast? = some ['.', '.']) then
      normFold absolute rest (acc ++ [comp])
    else if acc ≠ [] then normFold absolute rest acc.dropLast
    else normFold absolute rest acc

/-- `posixpath.normpath` on a character list. -/
def pyNormpathCh (cs : List Char) : List Char :=
  if cs = [] then ['.']
  else
    let initialSlashes : ℕ :=
      if startsWithCh ['/', '/'] cs ∧ ¬(startsWithCh ['/', '/', '/'] cs = true) then 2
      else if cs.head? = some '/' then 1 else 0
    let joined := joinSlash (normFold (0 < initialSlashes) (splitSlash cs []) [])
    let withSlashes := List.replicate initialSlashes '/' ++ joined
    if withSlashes = [] then ['.'] else withSlashes

/-- Python `str.lstrip('/')`. -/
def lstripSlashCh (cs : List Char) : List Char := cs.dropWhile (· = '/')

/-- `LocalStorageClient._normalize_path`: replace backslashes, `normpath`,
strip leading slashes, and reject `""`, `"."`, `".."` and anything starting
with `"../"`. -/
def normalizePath (path : String) : Except String String :=
  let replaced := path.data.map (fun c => if c = '\\' then '/' else c)
  let normalized := lstripSlashCh (pyNormpathCh replaced)
  if normalized = [] ∨ normalized = ['.'] ∨ normalized = ['.', '.'] ∨
      startsWithCh ['.', '.', '/'] normalized then
    Except.error ("Invalid storage path: " ++ path)
  else
    Except.ok ⟨normalized⟩

/-- `os.path.join(base_dir, normalized)` for the relative `normalized` that
`_normalize_path` returns. -/
def fullPath (baseDir normalized : String) : String :=
  baseDir ++ "/" ++ normalized

/-- The local filesystem under `base_dir`, keyed by normalized key. -/
structure LocalStore where
  files : List (String × List ℕ)
  deriving DecidableEq

/-- `LocalStorageClient.upload_file` (atomic write + fsync are no-ops on the
store abstraction); returns `_normalize_path(path)`. -/
def localUploadFile (st : LocalStore) (path : String) (data : List ℕ) :
    Except String (LocalStore × String) := do
  let n ← normalizePath path
  Except.ok (⟨(st.files.filter (fun f => f.1 ≠ n)) ++ [(n, data)]⟩, n)

/-- `LocalStorageClient.download_file` (`open(..., "rb")` fails when the file
does not exist). -/
def localDownloadFile (baseDir : String) (st : LocalStore) (path : String) :
    Except String (List ℕ) := do
  let n ← normalizePath path
  match st.files.lookup n with
  | some d => Except.ok d
  | none => Except.error ("No such file: " ++ fullPath baseDir n)

/-- `LocalStorageClient.get_presigned_url`: a `file://` URI for the full
path. -/
def localPresignedUrl (baseDir : String) (path : String) :
    Except String String := do
  let n ← normalizePath path
  Except.ok ("file://" ++ fullPath baseDir n)

/-- `LocalStorageClient.delete_file` (missing files are ignored). -/
def localDeleteFile (st : LocalStore) (path : String) :
    Except String LocalStore := do
  let n ← normalizePath path
  Except.ok ⟨st.files.filter (fun f => f.1 ≠ n)⟩

/-- `LocalStorageClient.file_exists`. -/
def localFileExists (st : LocalStore) (path : String) : Except String Bool := do
  let n ← normalizePath path
  Except.ok ((st.files.lookup n).isSome)

/-- The S3/MinIO bucket contents. -/
structure S3Store where
  objects : List (String × List ℕ)
  deriving DecidableEq

/-- `MinIOStorageClient.upload_file`: `put_object(Bucket, Key=path, …)` with
the key passed verbatim — no validation of any kind — and `path` returned. -/
def minioUploadFile (st : S3Store) (path : String) (data : List ℕ) :
    S3Store × String :=
  (⟨(st.objects.filter (fun f => f.1 ≠ path)) ++ [(path, data)]⟩, path)

/-- The claim's notion of a traversal key, written from the spec's words: a
relative key whose `..` components at some point step above the storage
root when resolved left to right (`depth` counts directories entered). -/
def escapeFrom (depth : ℕ) : List (List Char) → Bool
  | [] => false
  | comp :: rest =>
    if comp = [] ∨ comp = ['.'] then escapeFrom depth rest
    else if comp = ['.', '.'] then
      if depth = 0 then true else escapeFrom (depth - 1) rest
    else escapeFrom (depth + 1) rest

/-- A key containing a traversal component that escapes the storage root
(after backslash replacement; absolute keys are normalised into the root by
`normpath` and cannot escape). -/
def escapesRoot (key : String) : Bool :=
  let replaced := key.data.map (fun c => if c = '\\' then '/' else c)
  decide (replaced.head? ≠ some '/') && escapeFrom 0 (splitSlash replaced [])

end Vexa

namespace Vexa

/-- Components that `normpath` never stores except as leading `..`s. -/
def goodComp (c : List Char) : Prop := c ≠ [] ∧ c ≠ ['.'] ∧ c ≠ ['.', '.']

lemma escapeFrom_skip {comp : List Char} (d : ℕ) (rest : List (List Char))
    (h : comp = [] ∨ comp = ['.']) :
    escapeFrom d (comp :: rest) = escapeFrom d rest := by
  rw [escapeFrom, if_pos h]

lemma escapeFrom_dd (d : ℕ) (rest : List (List Char)) :
    escapeFrom d (['.', '.'] :: rest) =
      if d = 0 then true else escapeFrom (d - 1) rest := by
  rw [escapeFrom, if_neg (by simp), if_pos rfl]

lemma escapeFrom_other {comp : List Char} (d : ℕ) (rest : List (List Char))
    (h1 : ¬(comp = [] ∨ comp = ['.'])) (h2 : comp ≠ ['.', '.']) :
    escapeFrom d (comp :: rest) = escapeFrom (d + 1) rest := by
  rw [escapeFrom, if_neg h1, if_neg h2]

/-- For a relative path, the accumulator of `normpath`'s component loop is a
block of leading `..`s followed by ordinary components; the block never
shrinks, and it grows whenever the remaining components step above the root
from the current depth. -/
lemma normFold_relative_spec :
    ∀ (comps : List (List Char)) (k : ℕ) (rest : List (List Char)),
      (∀ c ∈ rest, goodComp c) →
      ∃ k2 rest2,
        normFold false comps (List.replicate k ['.', '.'] ++ rest) =
          List.replicate k2 ['.', '.'] ++ rest2 ∧
        (∀ c ∈ rest2, goodComp c) ∧ k ≤ k2 ∧
        (escapeFrom rest.length comps = true → k + 1 ≤ k2) := by
  intro comps
  induction comps with
  | nil =>
    intro k rest hrest
    exact ⟨k, rest, rfl, hrest, le_refl k,
      by intro h; exact absurd h (by simp [escapeFrom])⟩
  | cons comp rest' ih =>
    intro k rest hrest
    by_cases hskip : comp = [] ∨ comp = ['.']
    · rw [normFold, if_pos hskip]
      obtain ⟨k2, rest2, heq, hgood, hk, hesc⟩ := ih k rest hrest
      exact ⟨k2, rest2, heq, hgood, hk, fun h =>
        hesc (by rwa [escapeFrom_skip _ _ hskip] at h)⟩
    · by_cases hdd : comp = ['.', '.']
      · subst hdd
        rcases List.eq_nil_or_concat rest with hrnil | ⟨rest0, last0, hrc⟩
        · -- rest = []: the `..` is appended
          subst hrnil
          have hcond : (¬(['.', '.'] : List Char) = ['.', '.'] ∨
              (¬False ∧ (List.replicate k ['.', '.'] ++ ([] : List (List Char))) = []) ∨
              ((List.replicate k ['.', '.'] ++ ([] : List (List Char))) ≠ [] ∧
                (List.replicate k ['.', '.'] ++ ([] : List (List Char))).getLast? =
                  some ['.', '.'])) := by
            cases k with
            | zero => exact Or.inr (Or.inl ⟨not_false, by simp⟩)
            | succ k' =>
              refine Or.inr (Or.inr ⟨by simp, ?_⟩)
              rw [List.append_nil, List.replicate_succ', List.getLast?_concat]
          rw [normFold, if_neg hskip, if_pos (by simpa using hcond)]
          rw [show List.replicate k ['.', '.'] ++ ([] : List (List Char)) ++
              [['.', '.']] = List.replicate (k + 1) ['.', '.'] ++
                ([] : List (List Char)) by simp [List.replicate_succ']]
          obtain ⟨k2, rest2, heq, hgood, hk, hesc⟩ :=
            ih (k + 1) [] (by intro c hc; exact absurd hc (List.not_mem_nil c))
          exact ⟨k2, rest2, heq, hgood, by omega, fun _ => by omega⟩
        · -- rest ends in a good component: the `..` pops it
          rw [List.concat_eq_append] at hrc
          subst hrc
          have hrne : rest0 ++ [last0] ≠ [] := by simp
          have hlastgood : goodComp last0 := hrest last0 (by simp)
          have hlast : (List.replicate k ['.', '.'] ++
              (rest0 ++ [last0])).getLast? = some last0 := by
            rw [List.getLast?_append_of_ne_nil _ hrne, List.getLast?_concat]
          have hcond : ¬(¬(['.', '.'] : List Char) = ['.', '.'] ∨
              (¬False ∧ (List.replicate k ['.', '.'] ++ (rest0 ++ [last0])) = []) ∨
              ((List.replicate k ['.', '.'] ++ (rest0 ++ [last0])) ≠ [] ∧
                (List.replicate k ['.', '.'] ++ (rest0 ++ [last0])).getLast? =
                  some ['.', '.'])) := by
            rintro (h | ⟨_, h⟩ | ⟨_, h⟩)
            · exact h rfl
            · exact (by simp : List.replicate k ['.', '.'] ++
                (rest0 ++ [last0]) ≠ []) h
            · rw [hlast] at h
              injection h with h'
              exact hlastgood.2.2 h'
          rw [normFold, if_neg hskip, if_neg (by simpa using hcond),
            if_pos (by simp : (List.replicate k ['.', '.'] ++
              (rest0 ++ [last0])) ≠ [])]
          rw [List.dropLast_append_of_ne_nil _ hrne, List.dropLast_concat]
          obtain ⟨k2, rest2, heq, hgood, hk, hesc⟩ := ih k rest0
            (fun c hc => hrest c (by simp [hc]))
          refine ⟨k2, rest2, heq, hgood, hk, ?_⟩
          intro hesc'
          apply hesc
          rw [escapeFrom_dd] at hesc'
          rw [if_neg (by simp)] at hesc'
          simpa using hesc'
      · -- an ordinary component is appended
        have hgoodc : goodComp comp :=
          ⟨fun h => hskip (Or.inl h), fun h => hskip (Or.inr h), hdd⟩
        rw [normFold, if_neg hskip, if_pos (Or.inl hdd)]
        rw [show List.replicate k ['.', '.'] ++ rest ++ [comp] =
            List.replicate k ['.', '.'] ++ (rest ++ [comp]) by simp]
        obtain ⟨k2, rest2, heq, hgood, hk, hesc⟩ := ih k (rest ++ [comp])
          (by
            intro c hc
            rcases List.mem_append.1 hc with hc' | hc'
            · exact hrest c hc'
            · simp at hc'
              subst hc'
              exact hgoodc)
        refine ⟨k2, rest2, heq, hgood, hk, ?_⟩
        intro hesc'
        apply hesc
        rw [escapeFrom_other _ _ hskip hdd] at hesc'
        simpa using hesc'

end Vexa

namespace Vexa

lemma startsWithCh_head {p : Char} {ps cs : List Char}
    (h : startsWithCh (p :: ps) cs = true) : cs.head? = some p := by
  cases cs with
  | nil => exact absurd h (by rw [startsWithCh]; simp)
  | cons c cs' =>
    rw [startsWithCh, Bool.and_eq_true, decide_eq_true_eq] at h
    rw [List.head?_cons, h.1]

/-- A key that escapes the storage root is rejected by
`LocalStorageClient._normalize_path`. -/
lemma normalizePath_escape (key : String) (h : escapesRoot key = true) :
    normalizePath key = Except.error ("Invalid storage path: " ++ key) := by
  simp only [escapesRoot, Bool.and_eq_true, decide_eq_true_eq] at h
  obtain ⟨hrel, hesc⟩ := h
  set replaced := key.data.map (fun c => if c = '\\' then '/' else c) with hrep
  have hne : replaced ≠ [] := by
    intro h0
    rw [h0] at hesc
    simp [splitSlash, escapeFrom] at hesc
  have h2 : startsWithCh ['/', '/'] replaced = false := by
    cases hsw : startsWithCh ['/', '/'] replaced
    · rfl
    · exact absurd (startsWithCh_head hsw) hrel
  obtain ⟨k2, rest2, heq, hgood, hge0, hesc2⟩ :=
    normFold_relative_spec (splitSlash replaced []) 0 []
      (by intro c hc; exact absurd hc (List.not_mem_nil c))
  simp only [List.replicate, List.append_nil, List.length_nil] at heq hesc2
  have hk2 : 1 ≤ k2 := hesc2 hesc
  obtain ⟨k2', rfl⟩ : ∃ k2', k2 = k2' + 1 := ⟨k2 - 1, by omega⟩
  rw [List.replicate_succ, List.cons_append] at heq
  have hjne : joinSlash (['.', '.'] :: (List.replicate k2' ['.', '.'] ++ rest2)) ≠ [] := by
    cases List.replicate k2' ['.', '.'] ++ rest2 with
    | nil => rw [joinSlash]; simp
    | cons y ys => rw [joinSlash]; simp
  have hpy : pyNormpathCh replaced =
      joinSlash (['.', '.'] :: (List.replicate k2' ['.', '.'] ++ rest2)) := by
    have hi2 : ¬(startsWithCh ['/', '/'] replaced = true ∧
        ¬(startsWithCh ['/', '/', '/'] replaced = true)) := by simp [h2]
    simp only [pyNormpathCh]
    rw [if_neg hne, if_neg hi2, if_neg hrel]
    simp only [show (decide ((0 : ℕ) < 0)) = false from rfl, List.replicate_zero,
      List.nil_append]
    rw [heq, if_neg hjne]
  simp only [normalizePath]
  rw [← hrep, hpy]
  cases List.replicate k2' ['.', '.'] ++ rest2 with
  | nil =>
    have hc : lstripSlashCh (joinSlash [['.', '.']]) = [] ∨
        lstripSlashCh (joinSlash [['.', '.']]) = ['.'] ∨
        lstripSlashCh (joinSlash [['.', '.']]) = ['.', '.'] ∨
        startsWithCh ['.', '.', '/'] (lstripSlashCh (joinSlash [['.', '.']])) = true :=
      Or.inr (Or.inr (Or.inl rfl))
    rw [if_pos hc]
  | cons y ys =>
    have hc : lstripSlashCh (joinSlash (['.', '.'] :: y :: ys)) = [] ∨
        lstripSlashCh (joinSlash (['.', '.'] :: y :: ys)) = ['.'] ∨
        lstripSlashCh (joinSlash (['.', '.'] :: y :: ys)) = ['.', '.'] ∨
        startsWithCh ['.', '.', '/']
          (lstripSlashCh (joinSlash (['.', '.'] :: y :: ys))) = true :=
      Or.inr (Or.inr (Or.inr rfl))
    rw [if_pos hc]

end Vexa

namespace Vexa

lemma lookup_filter_append (l : List (String × List ℕ)) (k : String) (d : List ℕ) :
    ((l.filter (fun f => f.1 ≠ k)) ++ [(k, d)]).lookup k = some d := by
  induction l with
  | nil => simp [List.lookup]
  | cons x xs ih =>
    obtain ⟨x1, x2⟩ := x
    by_cases hx : x1 = k
    · simp only [List.filter_cons]
      rw [if_neg (by simp [hx])]
      exact ih
    · simp only [List.filter_cons]
      rw [if_pos (by simp [hx]), List.cons_append, List.lookup]
      have hb : (k == x1) = false := beq_eq_false_iff_ne.2 (Ne.symm hx)
      rw [hb]
      exact ih

/-- **C9, counterexample.**  The S3-compatible client performs no key
validation: uploading under the traversal key `"../../etc/passwd"` raises
nothing — the object is stored under that key and the key is returned —
while the claim says every storage operation of both variants rejects such a
key with an error. -/
theorem storage_traversal_counterexample :
    escapesRoot "../../etc/passwd" = true ∧
    minioUploadFile ⟨[]⟩ "../../etc/passwd" [7, 7] =
      (⟨[("../../etc/passwd", [7, 7])]⟩, "../../etc/passwd") := by
  constructor
  · decide
  · rfl

/-- **C9, amended.**  Every operation of the local filesystem client rejects
a key whose `..` components escape the storage root with a `ValueError`
(they all funnel through `_normalize_path`), while the S3-compatible client
applies no validation: even an escaping key is passed verbatim to the object
store, the upload succeeds and the object is stored under that key (S3 keys
are opaque names, so no location outside the bucket is addressed). -/
theorem storage_traversal_spec (baseDir : String) (st : LocalStore)
    (s3 : S3Store) (key : String) (data : List ℕ)
    (h : escapesRoot key = true) :
    normalizePath key = Except.error ("Invalid storage path: " ++ key) ∧
    localUploadFile st key data = Except.error ("Invalid storage path: " ++ key) ∧
    localDownloadFile baseDir st key =
      Except.error ("Invalid storage path: " ++ key) ∧
    localPresignedUrl baseDir key =
      Except.error ("Invalid storage path: " ++ key) ∧
    localDeleteFile st key = Except.error ("Invalid storage path: " ++ key) ∧
    localFileExists st key = Except.error ("Invalid storage path: " ++ key) ∧
    (minioUploadFile s3 key data).2 = key ∧
    (minioUploadFile s3 key data).1.objects.lookup key = some data := by
  have hn := normalizePath_escape key h
  refine ⟨hn, ?_, ?_, ?_, ?_, ?_, rfl, ?_⟩
  · simp only [localUploadFile, hn]
    rfl
  · simp only [localDownloadFile, hn]
    rfl
  · simp only [localPresignedUrl, hn]
    rfl
  · simp only [localDeleteFile, hn]
    rfl
  · simp only [localFileExists, hn]
    rfl
  · exact lookup_filter_append s3.objects key data

/-- Witness for `storage_traversal_spec` at the key `"../secret"`. -/
theorem storage_traversal_spec_witness :
    localUploadFile ⟨[]⟩ "../secret" [1, 2] =
      Except.error "Invalid storage path: ../secret" ∧
    localFileExists ⟨[]⟩ "../secret" =
      Except.error "Invalid storage path: ../secret" ∧
    (minioUploadFile ⟨[]⟩ "../secret" [1, 2]).1.objects.lookup "../secret" =
      some [1, 2] := by
  obtain ⟨h1, h2, h3, h4, h5, h6, h7, h8⟩ :=
    storage_traversal_spec "/data" ⟨[]⟩ ⟨[]⟩ "../secret" [1, 2] (by decide)
  exact ⟨h2, h6, h8⟩

end Vexa
